import Mathlib

/-!
Verification development for the poker core of `src/index.tsx`
(class `PokerGame`): card model, hand evaluation, betting logic and the
game-state machine, shallowly embedded in Lean.

Conventions of the embedding:
* JS `number` chip quantities (stacks, bets, pot) are modelled as `ℚ`,
  since the source divides the pot by the number of winners with plain `/`.
* Card values are `ℕ` (the source builds them as `index + 2`, 2..14).
* The mutable `PokerGame` fields become a `GameState` structure; each
  source method becomes a function `GameState → GameState`.
* The deck is a `List Card` consumed from the head; the JS array is
  consumed from the end (`Array.pop`), so the embedded list holds the
  cards in deal order.  All claims about the deck are order-independent
  (the shuffle makes the order an arbitrary permutation).
-/

namespace Poker

inductive Suit
  | hearts | diamonds | clubs | spades
deriving DecidableEq, Repr, Inhabited

/-- Embedding of `Card` from the source: `{ suit, rank, value }`.  The display string
`rank` is determined by `value` (source: `value = index + 2`), so only
`suit` and `value` are modelled. -/
structure Card where
  suit : Suit
  value : ℕ
deriving DecidableEq, Repr

/-! The `HandRank` enum of the source is a numeric enum 0..9; the source
does arithmetic on it (`hand1.rank - hand2.rank`, `rank / ROYAL_FLUSH`),
so it is embedded as `ℕ` constants. -/

def HIGH_CARD : ℕ := 0
def ONE_PAIR : ℕ := 1
def TWO_PAIR : ℕ := 2
def THREE_OF_A_KIND : ℕ := 3
def STRAIGHT : ℕ := 4
def FLUSH : ℕ := 5
def FULL_HOUSE : ℕ := 6
def FOUR_OF_A_KIND : ℕ := 7
def STRAIGHT_FLUSH : ℕ := 8
def ROYAL_FLUSH : ℕ := 9

/-- Embedding of `HandResult` from the source, without the display-only `name` field. -/
structure HandResult where
  rank : ℕ
  values : List ℕ
deriving DecidableEq, Repr

/-! ### Sorting

The source sorts with `[...hand].sort((a, b) => b.value - a.value)`
(descending by value; JS sort is stable, and nothing downstream depends
on the relative order of equal values).  We embed a concrete insertion
sort parameterised by a boolean "greater or equal" test. -/

def insertDescBy (ge : α → α → Bool) (c : α) : List α → List α
  | [] => [c]
  | x :: xs => if ge x c then x :: insertDescBy ge c xs else c :: x :: xs

def sortDescBy (ge : α → α → Bool) (l : List α) : List α :=
  l.foldr (insertDescBy ge) []

theorem insertDescBy_perm (ge : α → α → Bool) (c : α) (l : List α) :
    (insertDescBy ge c l).Perm (c :: l) := by
  induction l with
  | nil => simp [insertDescBy]
  | cons x xs ih =>
    simp only [insertDescBy]
    split
    · exact (ih.cons x).trans (List.Perm.swap c x xs)
    · exact List.Perm.refl _

theorem sortDescBy_perm (ge : α → α → Bool) (l : List α) :
    (sortDescBy ge l).Perm l := by
  induction l with
  | nil => exact List.Perm.refl _
  | cons x xs ih =>
    exact (insertDescBy_perm ge x (sortDescBy ge xs)).trans (ih.cons x)

theorem length_sortDescBy (ge : α → α → Bool) (l : List α) :
    (sortDescBy ge l).length = l.length :=
  (sortDescBy_perm ge l).length_eq

theorem mem_sortDescBy (ge : α → α → Bool) (l : List α) (a : α) :
    a ∈ sortDescBy ge l ↔ a ∈ l :=
  (sortDescBy_perm ge l).mem_iff

/-- The sort used on 5-card hands (source: `sort((a, b) => b.value - a.value)`). -/
def sortHandDesc (hand : List Card) : List Card :=
  sortDescBy (fun a b => b.value ≤ a.value) hand

/-- The sort used on the group-size list (source: `sort((a, b) => b - a)`). -/
def sortNatDesc (l : List ℕ) : List ℕ :=
  sortDescBy (fun a b => b ≤ a) l

/-! ### getHandRank -/

/-- The per-value multiplicities of `values`, one entry per distinct value
(source: the `valueCounts` object, one key per distinct value). -/
def groupSizes (values : List ℕ) : List ℕ :=
  values.dedup.map (fun v => values.count v)

/-- The distinct values having multiplicity `k` (source: `Object.keys(valueCounts)`
filtered by count; key enumeration order never matters below because every
lookup the source performs is over a unique key, except the two-pair case
where the source itself re-sorts). -/
def keysWithCount (values : List ℕ) (k : ℕ) : List ℕ :=
  values.dedup.filter (fun v => values.count v == k)

/-- First distinct value with multiplicity `k` (source:
`Object.keys(valueCounts).find(k => valueCounts[k] === n)`; unique in every
branch where the source uses it, so the enumeration order is irrelevant). -/
def keyWithCount (values : List ℕ) (k : ℕ) : ℕ :=
  (keysWithCount values k).headI

/-- Whether `values` (descending) is five consecutive values (source:
`values.every((v, i) => i === 0 || v === values[i-1] - 1)`; the JS test
`v === prev - 1` over numbers is `v + 1 = prev` over `ℕ`). -/
def isDescendingRun : List ℕ → Bool
  | [] => true
  | [_] => true
  | a :: b :: rest => (b + 1 = a) && isDescendingRun (b :: rest)

/-- Embedding of `getHandRank` from the source: classify a 5-card hand. -/
def getHandRank (hand : List Card) : HandResult :=
  let sortedHand := sortHandDesc hand
  let values := sortedHand.map (fun c => c.value)
  let suits := sortedHand.map (fun c => c.suit)
  let isFlush := suits.all (fun s => s == suits.headI)
  let isStraight := isDescendingRun values
  let isAceLowStraight := values = [14, 5, 4, 3, 2]
  if isStraight && isFlush then
    if values.headI = 14 then ⟨ROYAL_FLUSH, []⟩
    else ⟨STRAIGHT_FLUSH, values⟩
  else
    -- `counts`: group sizes sorted descending (`Object.values(valueCounts).sort((a,b) => b-a)`);
    -- the source's `pairValues` binding on the same lines is dead code.
    let counts := sortNatDesc (groupSizes values)
    if counts.headI = 4 then
      ⟨FOUR_OF_A_KIND, [keyWithCount values 4, keyWithCount values 1]⟩
    else if counts.headI = 3 ∧ counts.getI 1 = 2 then
      ⟨FULL_HOUSE, [keyWithCount values 3, keyWithCount values 2]⟩
    else if isFlush then ⟨FLUSH, values⟩
    else if isStraight then ⟨STRAIGHT, values⟩
    else if isAceLowStraight then ⟨STRAIGHT, [5, 4, 3, 2, 1]⟩
    else if counts.headI = 3 then
      ⟨THREE_OF_A_KIND,
        keyWithCount values 3 :: values.filter (fun v => v != keyWithCount values 3)⟩
    else if counts.headI = 2 ∧ counts.getI 1 = 2 then
      let pairs := sortNatDesc (keysWithCount values 2)
      let kicker := (values.filter (fun v => !(pairs.contains v))).headI
      ⟨TWO_PAIR, pairs ++ [kicker]⟩
    else if counts.headI = 2 then
      ⟨ONE_PAIR,
        keyWithCount values 2 :: values.filter (fun v => v != keyWithCount values 2)⟩
    else ⟨HIGH_CARD, values⟩

/-! ### compareHands -/

/-- The value-list comparison loop of `compareHands`
(`for i in 0..hand1.values.length: first difference decides`).
On every comparison the source performs, the two lists have equal length
whenever ranks are equal — except against the seed `{rank: HIGH_CARD,
values: [0]}` of `evaluateHand`, where the loop stops at the seed's
length; both out-of-range cases below are therefore never decided by a
missing element in the reachable comparisons. -/
def cmpValues : List ℕ → List ℕ → ℤ
  | [], _ => 0
  | _ :: _, [] => 0
  | a :: as, b :: bs => if a ≠ b then (a : ℤ) - (b : ℤ) else cmpValues as bs

/-- Embedding of `compareHands` from the source: positive when the first hand wins,
negative when the second wins, zero for a tie. -/
def compareHands (hand1 hand2 : HandResult) : ℤ :=
  if hand1.rank ≠ hand2.rank then (hand1.rank : ℤ) - (hand2.rank : ℤ)
  else cmpValues hand1.values hand2.values

/-! ### getCombinations and evaluateHand -/

/-- The recursive enumeration inside `getCombinations` (`combo(index,
currentCombo)`: take `arr[index]` first, then skip it). -/
def combosAux (size : ℕ) : List α → List α → List (List α)
  | arr, currentCombo =>
    if currentCombo.length = size then [currentCombo]
    else
      match arr with
      | [] => []
      | x :: rest =>
        combosAux size rest (currentCombo ++ [x]) ++ combosAux size rest currentCombo

/-- Embedding of `getCombinations` from the source. -/
def getCombinations (arr : List α) (size : ℕ) : List (List α) :=
  combosAux size arr []

/-- The seed value of `evaluateHand`
(`{ rank: HandRank.HIGH_CARD, values: [0], name: '' }`). -/
def initialBest : HandResult := ⟨HIGH_CARD, [0]⟩

/-- The loop body of `evaluateHand` (`result = getHandRank(combo); if
(compareHands(best, result) < 0) best = result`). -/
def evalStep (bestHandResult : HandResult) (combo : List Card) : HandResult :=
  let result := getHandRank combo
  if compareHands bestHandResult result < 0 then result else bestHandResult

/-- Embedding of `evaluateHand` from the source: best 5-card combination of 5–7 cards
under `compareHands` (the display `name` assignment is omitted). -/
def evaluateHand (cards : List Card) : HandResult :=
  (getCombinations cards 5).foldl evalStep initialBest

/-! ### Algebra of `compareHands` -/

theorem cmpValues_self (l : List ℕ) : cmpValues l l = 0 := by
  induction l with
  | nil => rfl
  | cons a as ih => simp [cmpValues, ih]

theorem compareHands_self (h : HandResult) : compareHands h h = 0 := by
  simp [compareHands, cmpValues_self]

theorem cmpValues_antisymm (as bs : List ℕ) : cmpValues as bs = -cmpValues bs as := by
  induction as generalizing bs with
  | nil => cases bs <;> simp [cmpValues]
  | cons a as ih =>
    cases bs with
    | nil => simp [cmpValues]
    | cons b bs =>
      simp only [cmpValues]
      by_cases hab : a = b
      · subst hab
        simp [ih]
      · have hba : b ≠ a := fun h => hab h.symm
        simp only [hab, hba, if_pos, ne_eq, not_false_eq_true, if_true]
        ring

theorem compareHands_antisymm (a b : HandResult) :
    compareHands a b = -compareHands b a := by
  unfold compareHands
  by_cases hr : a.rank = b.rank
  · rw [if_neg (by simp [hr]), if_neg (by simp [hr])]
    exact cmpValues_antisymm _ _
  · rw [if_pos hr, if_pos (fun h => hr h.symm)]
    ring

theorem cmpValues_trans {as bs cs : List ℕ} (h1 : as.length = bs.length)
    (h2 : bs.length = cs.length) :
    (cmpValues as bs ≤ 0 → cmpValues bs cs ≤ 0 → cmpValues as cs ≤ 0) ∧
    (cmpValues as bs ≤ 0 → cmpValues bs cs < 0 → cmpValues as cs < 0) ∧
    (cmpValues as bs < 0 → cmpValues bs cs ≤ 0 → cmpValues as cs < 0) := by
  induction as generalizing bs cs with
  | nil =>
    cases bs with
    | cons b bs => simp at h1
    | nil =>
      cases cs with
      | cons c cs => simp at h2
      | nil => exact ⟨fun _ h => h, fun _ h => h, fun h _ => h⟩
  | cons a as ih =>
    cases bs with
    | nil => simp at h1
    | cons b bs =>
      cases cs with
      | nil => simp at h2
      | cons c cs =>
        simp only [List.length_cons, Nat.add_right_cancel_iff] at h1 h2
        by_cases hab : a = b <;> by_cases hbc : b = c
        · subst hab; subst hbc
          have e : ∀ ds es : List ℕ, cmpValues (a :: ds) (a :: es) = cmpValues ds es := by
            intro ds es; simp [cmpValues]
          rw [e, e, e]
          exact ih h1 h2
        · subst hab
          have e1 : cmpValues (a :: as) (a :: bs) = cmpValues as bs := by simp [cmpValues]
          have e2 : cmpValues (a :: bs) (c :: cs) = (a : ℤ) - c := by simp [cmpValues, hbc]
          have e3 : cmpValues (a :: as) (c :: cs) = (a : ℤ) - c := by simp [cmpValues, hbc]
          rw [e1, e2, e3]
          have hac : (a : ℤ) ≠ (c : ℤ) := by exact_mod_cast hbc
          exact ⟨fun _ h => h, fun _ h => h, fun _ h => by omega⟩
        · subst hbc
          have e1 : cmpValues (a :: as) (b :: bs) = (a : ℤ) - b := by simp [cmpValues, hab]
          have e2 : cmpValues (b :: bs) (b :: cs) = cmpValues bs cs := by simp [cmpValues]
          have e3 : cmpValues (a :: as) (b :: cs) = (a : ℤ) - b := by simp [cmpValues, hab]
          rw [e1, e2, e3]
          have hb : (a : ℤ) ≠ (b : ℤ) := by exact_mod_cast hab
          exact ⟨fun h _ => h, fun h _ => by omega, fun h _ => h⟩
        · have e1 : cmpValues (a :: as) (b :: bs) = (a : ℤ) - b := by simp [cmpValues, hab]
          have e2 : cmpValues (b :: bs) (c :: cs) = (b : ℤ) - c := by simp [cmpValues, hbc]
          rw [e1, e2]
          have hb : (a : ℤ) ≠ (b : ℤ) := by exact_mod_cast hab
          have hc : (b : ℤ) ≠ (c : ℤ) := by exact_mod_cast hbc
          refine ⟨fun g1 g2 => ?_, fun g1 g2 => ?_, fun g1 g2 => ?_⟩ <;>
          · have hac : a ≠ c := by
              intro h
              subst h
              omega
            have e3 : cmpValues (a :: as) (c :: cs) = (a : ℤ) - c := by
              simp [cmpValues, hac]
            rw [e3]
            omega


/-- Transitivity of `compareHands` for results whose tiebreak lists have
equal length whenever their categories are equal (which holds for every
result `getHandRank` produces, see `goodHR_getHandRank`). -/
theorem compareHands_trans {a b c : HandResult}
    (hab : a.rank = b.rank → a.values.length = b.values.length)
    (hbc : b.rank = c.rank → b.values.length = c.values.length) :
    (compareHands a b ≤ 0 → compareHands b c ≤ 0 → compareHands a c ≤ 0) ∧
    (compareHands a b ≤ 0 → compareHands b c < 0 → compareHands a c < 0) ∧
    (compareHands a b < 0 → compareHands b c ≤ 0 → compareHands a c < 0) := by
  unfold compareHands
  by_cases r1 : a.rank = b.rank <;> by_cases r2 : b.rank = c.rank
  · have r3 : a.rank = c.rank := r1.trans r2
    rw [if_neg (by simp [r1]), if_neg (by simp [r2]), if_neg (by simp [r3])]
    exact cmpValues_trans (hab r1) (hbc r2)
  · have r3 : a.rank ≠ c.rank := fun h => r2 (r1.symm.trans h)
    rw [if_neg (by simp [r1]), if_pos r2, if_pos r3, r1]
    have hv : (b.rank : ℤ) ≠ (c.rank : ℤ) := by exact_mod_cast r2
    exact ⟨fun _ h => h, fun _ h => h, fun _ h => by omega⟩
  · have r3 : a.rank ≠ c.rank := fun h => r1 (h.trans r2.symm)
    rw [if_pos r1, if_neg (by simp [r2]), if_pos r3, r2]
    have hv : (a.rank : ℤ) ≠ (b.rank : ℤ) := by exact_mod_cast r1
    exact ⟨fun h _ => h, fun h _ => by omega, fun h _ => h⟩
  · rw [if_pos r1, if_pos r2]
    have hv1 : (a.rank : ℤ) ≠ (b.rank : ℤ) := by exact_mod_cast r1
    have hv2 : (b.rank : ℤ) ≠ (c.rank : ℤ) := by exact_mod_cast r2
    refine ⟨fun g1 g2 => ?_, fun g1 g2 => ?_, fun g1 g2 => ?_⟩ <;>
    · have r3 : a.rank ≠ c.rank := by
        intro h
        rw [h] at hv1
        omega
      rw [if_pos r3]
      omega

/-! ### Shape of the results of `getHandRank`

The length of the tiebreak list of every result `getHandRank` produces is
a function of its category alone; this is what makes `compareHands` a
lawful comparison on evaluator results. -/

/-- Tiebreak-list length per category, as produced by `getHandRank`. -/
def rankLen (r : ℕ) : ℕ :=
  if r = ROYAL_FLUSH then 0
  else if r = FOUR_OF_A_KIND ∨ r = FULL_HOUSE then 2
  else if r = THREE_OF_A_KIND ∨ r = TWO_PAIR then 3
  else if r = ONE_PAIR then 4
  else 5

/-- Well-formedness of a hand result: the tiebreak list has the length
dictated by the category, and a high-card result starts with a positive
card value. -/
def GoodHR (h : HandResult) : Prop :=
  h.values.length = rankLen h.rank ∧
    (h.rank = HIGH_CARD → ∃ v vs, h.values = v :: vs ∧ 0 < v)

theorem good_lenOK {a b : HandResult} (ha : GoodHR a) (hb : GoodHR b) :
    a.rank = b.rank → a.values.length = b.values.length := by
  intro h
  rw [ha.1, hb.1, h]

theorem compareHands_init_lt {g : HandResult} (hg : GoodHR g) :
    compareHands initialBest g < 0 := by
  unfold compareHands initialBest
  by_cases hr : g.rank = HIGH_CARD
  · obtain ⟨v, vs, hv, hpos⟩ := hg.2 hr
    rw [if_neg (by simp [HIGH_CARD, hr]), hv]
    have hne : (0 : ℕ) ≠ v := by omega
    simp only [cmpValues, hne, ne_eq, not_false_eq_true, if_true]
    omega
  · rw [if_pos (by simpa [HIGH_CARD] using fun h => hr h.symm)]
    have hpos : 0 < g.rank := Nat.pos_of_ne_zero hr
    simp only [HIGH_CARD]
    omega

theorem compareHands_init_gt {g : HandResult} (hg : GoodHR g) :
    0 < compareHands g initialBest := by
  have h := compareHands_init_lt hg
  rw [compareHands_antisymm] at h
  omega

/-- The states the running best of `evaluateHand` can be in. -/
def SOK (h : HandResult) : Prop := GoodHR h ∨ h = initialBest

theorem sok_trans {a b c : HandResult} (ha : SOK a) (hb : SOK b) (hc : SOK c) :
    (compareHands a b ≤ 0 → compareHands b c ≤ 0 → compareHands a c ≤ 0) ∧
    (compareHands a b ≤ 0 → compareHands b c < 0 → compareHands a c < 0) ∧
    (compareHands a b < 0 → compareHands b c ≤ 0 → compareHands a c < 0) := by
  rcases ha with ha | ha
  · rcases hb with hb | hb
    · rcases hc with hc | hc
      · exact compareHands_trans (good_lenOK ha hb) (good_lenOK hb hc)
      · subst hc
        have h1 := compareHands_init_gt ha
        have h2 := compareHands_init_gt hb
        exact ⟨fun _ g => by omega, fun _ g => by omega, fun _ g => by omega⟩
    · subst hb
      have h1 := compareHands_init_gt ha
      exact ⟨fun g _ => by omega, fun g _ => by omega, fun g _ => by omega⟩
  · subst ha
    rcases hc with hc | hc
    · have h3 := compareHands_init_lt hc
      exact ⟨fun _ _ => by omega, fun _ _ => h3, fun _ _ => h3⟩
    · subst hc
      rcases hb with hb | hb
      · have h2 := compareHands_init_gt hb
        rw [compareHands_self]
        exact ⟨fun _ _ => by omega, fun _ g => by omega, fun g _ => by omega⟩
      · subst hb
        rw [compareHands_self]
        exact ⟨fun _ _ => by omega, fun _ g => by omega, fun g _ => by omega⟩

theorem headI_mem [Inhabited α] {l : List α} (h : l ≠ []) : l.headI ∈ l := by
  cases l with
  | nil => exact absurd rfl h
  | cons a as => simp

theorem length_filter_ne (l : List ℕ) (a : ℕ) :
    (l.filter (fun v => v != a)).length = l.length - l.count a := by
  induction l with
  | nil => rfl
  | cons x xs ih =>
    have hle : xs.count a ≤ xs.length := List.count_le_length a xs
    by_cases hx : x = a
    · subst hx
      simp only [List.filter_cons, bne_self_eq_false, Bool.false_eq_true, if_false,
        List.length_cons, List.count_cons_self]
      rw [ih]
      omega
    · have hb : (x != a) = true := by simp [hx]
      have hxa : a ≠ x := fun h => hx h.symm
      have hcx : (x :: xs).count a = xs.count a := by
        simp [List.count_cons, hxa]
      simp only [List.filter_cons, hb, if_true, List.length_cons, hcx]
      rw [ih]
      omega

theorem length_handValues (hand : List Card) :
    ((sortHandDesc hand).map (fun c => c.value)).length = hand.length := by
  rw [List.length_map, sortHandDesc, length_sortDescBy]

theorem two_le_of_mem_handValues {hand : List Card} (hval : ∀ c ∈ hand, 2 ≤ c.value)
    {v : ℕ} (hv : v ∈ (sortHandDesc hand).map (fun c => c.value)) : 2 ≤ v := by
  obtain ⟨c, hc, rfl⟩ := List.mem_map.1 hv
  exact hval c ((mem_sortDescBy _ _ _).1 hc)

theorem count_key_of_headI (values : List ℕ) (k : ℕ) (hne : values ≠ [])
    (h : (sortNatDesc (groupSizes values)).headI = k) :
    values.count (keyWithCount values k) = k := by
  have hg : groupSizes values ≠ [] := by
    simp [groupSizes, List.dedup_eq_nil, hne]
  have hc : sortNatDesc (groupSizes values) ≠ [] := by
    intro h0
    have hp := sortDescBy_perm (fun a b : ℕ => b ≤ a) (groupSizes values)
    rw [sortNatDesc] at h0
    rw [h0] at hp
    exact hg hp.symm.eq_nil
  have hmem : k ∈ sortNatDesc (groupSizes values) := h ▸ headI_mem hc
  have hmem2 : k ∈ groupSizes values := (mem_sortDescBy _ _ _).1 hmem
  obtain ⟨v, hv, hvk⟩ := List.mem_map.1 hmem2
  have hfil : v ∈ keysWithCount values k := by
    rw [keysWithCount, List.mem_filter]
    exact ⟨hv, by simp [hvk]⟩
  have hne2 : keysWithCount values k ≠ [] := List.ne_nil_of_mem hfil
  have hkey : keyWithCount values k ∈ keysWithCount values k := headI_mem hne2
  have := (List.mem_filter.1 hkey).2
  simpa using this

theorem length_keysWithCount_eq_count_two (values : List ℕ) :
    (keysWithCount values 2).length = (groupSizes values).count 2 := by
  rw [keysWithCount, groupSizes, List.count_eq_countP, List.countP_map,
    List.countP_eq_length_filter]
  rfl

theorem length_keysWithCount_two (values : List ℕ) (h5 : values.length = 5)
    (h0 : (sortNatDesc (groupSizes values)).headI = 2)
    (h1 : (sortNatDesc (groupSizes values)).getI 1 = 2) :
    (keysWithCount values 2).length = 2 := by
  have hp := sortDescBy_perm (fun a b : ℕ => b ≤ a) (groupSizes values)
  -- lower bound: the sorted group sizes start with two 2s
  have hlow : 2 ≤ (keysWithCount values 2).length := by
    rw [length_keysWithCount_eq_count_two]
    have hcnt : 2 ≤ (sortNatDesc (groupSizes values)).count 2 := by
      rcases hs : sortNatDesc (groupSizes values) with _ | ⟨c0, _ | ⟨c1, r⟩⟩
      · rw [hs] at h0
        simp at h0
      · rw [hs] at h1
        simp [List.getI] at h1
      · rw [hs] at h0 h1
        simp only [List.headI_cons] at h0
        have hc1 : c1 = 2 := by simpa [List.getI] using h1
        subst h0
        subst hc1
        simp [List.count_cons]
    calc 2 ≤ (sortNatDesc (groupSizes values)).count 2 := hcnt
      _ = (groupSizes values).count 2 := hp.count_eq 2
  -- upper bound: each counted key contributes 2 occurrences to the 5 values
  have hup : 2 * (keysWithCount values 2).length ≤ 5 := by
    have hsum := List.sum_map_count_dedup_filter_eq_countP
      (fun v => values.count v == 2) values
    have hmapc :
        (values.dedup.filter (fun v => values.count v == 2)).map (fun x => values.count x) =
          (values.dedup.filter (fun v => values.count v == 2)).map (fun _ => 2) := by
      apply List.map_congr_left
      intro a ha
      have := (List.mem_filter.1 ha).2
      simpa using this
    rw [hmapc] at hsum
    have hrep : ((values.dedup.filter (fun v => values.count v == 2)).map
        (fun _ => (2 : ℕ))).sum = (keysWithCount values 2).length * 2 := by
      rw [List.map_const']
      rw [List.sum_replicate]
      simp [keysWithCount]
    rw [hrep] at hsum
    have hle : values.countP (fun v => values.count v == 2) ≤ values.length :=
      List.countP_le_length _
    omega
  omega

/-- Every result `getHandRank` produces on a 5-card hand of genuine cards
(values at least 2) is well-formed: the tiebreak-list length is determined
by the category, and a high-card result leads with a positive value. -/
theorem goodHR_getHandRank (hand : List Card) (hlen : hand.length = 5)
    (hval : ∀ c ∈ hand, 2 ≤ c.value) : GoodHR (getHandRank hand) := by
  have hv5 : ((sortHandDesc hand).map (fun c => c.value)).length = 5 := by
    rw [length_handValues, hlen]
  have hvne : (sortHandDesc hand).map (fun c => c.value) ≠ [] := by
    intro h0
    rw [h0] at hv5
    simp at hv5
  simp only [getHandRank]
  split_ifs with hsf hroyal h4 hfh hfl hst hace h3 h22 h2
  · exact ⟨by decide, fun h => absurd h (by decide)⟩
  · exact ⟨by simp only [hv5]; decide,
      fun h => by simp [STRAIGHT_FLUSH, HIGH_CARD] at h⟩
  · exact ⟨by simp [rankLen, ROYAL_FLUSH, FOUR_OF_A_KIND, FULL_HOUSE],
      fun h => by simp [FOUR_OF_A_KIND, HIGH_CARD] at h⟩
  · exact ⟨by simp [rankLen, ROYAL_FLUSH, FOUR_OF_A_KIND, FULL_HOUSE],
      fun h => by simp [FULL_HOUSE, HIGH_CARD] at h⟩
  · exact ⟨by simp only [hv5]; decide, fun h => by simp [FLUSH, HIGH_CARD] at h⟩
  · exact ⟨by simp only [hv5]; decide, fun h => by simp [STRAIGHT, HIGH_CARD] at h⟩
  · exact ⟨by decide, fun h => absurd h (by decide)⟩
  · have hc := count_key_of_headI _ 3 hvne h3
    refine ⟨?_, fun h => by simp [THREE_OF_A_KIND, HIGH_CARD] at h⟩
    simp only [List.length_cons, length_filter_ne, hc, hv5]
    decide
  · refine ⟨?_, fun h => by simp [TWO_PAIR, HIGH_CARD] at h⟩
    simp only [List.length_append, List.length_singleton, sortNatDesc, length_sortDescBy,
      length_keysWithCount_two _ hv5 h22.1 h22.2]
    decide
  · have hc := count_key_of_headI _ 2 hvne h2
    refine ⟨?_, fun h => by simp [ONE_PAIR, HIGH_CARD] at h⟩
    simp only [List.length_cons, length_filter_ne, hc, hv5]
    decide
  · refine ⟨by simp only [hv5]; decide, fun _ => ?_⟩
    obtain ⟨v, vs, hcons⟩ := List.exists_cons_of_ne_nil hvne
    refine ⟨v, vs, hcons, ?_⟩
    have hv : v ∈ (sortHandDesc hand).map (fun c => c.value) := by
      rw [hcons]
      exact List.mem_cons_self v vs
    have h2v := two_le_of_mem_handValues hval hv
    omega

/-! ### Properties of `getCombinations` and `evaluateHand` -/

theorem combosAux_mem_spec (size : ℕ) :
    ∀ (arr currentCombo : List α), ∀ c ∈ combosAux size arr currentCombo,
      c.length = size ∧ ∀ x ∈ c, x ∈ currentCombo ∨ x ∈ arr := by
  intro arr
  induction arr with
  | nil =>
    intro cur c hc
    rw [combosAux] at hc
    split_ifs at hc with h
    · rw [List.mem_singleton] at hc
      subst hc
      exact ⟨h, fun x hx => Or.inl hx⟩
    · simp at hc
  | cons a rest ih =>
    intro cur c hc
    rw [combosAux] at hc
    split_ifs at hc with h
    · rw [List.mem_singleton] at hc
      subst hc
      exact ⟨h, fun x hx => Or.inl hx⟩
    · rw [List.mem_append] at hc
      rcases hc with hc | hc
      · obtain ⟨hl, hm⟩ := ih _ c hc
        refine ⟨hl, fun x hx => ?_⟩
        rcases hm x hx with hx' | hx'
        · rw [List.mem_append, List.mem_singleton] at hx'
          rcases hx' with hx' | hx'
          · exact Or.inl hx'
          · exact Or.inr (hx' ▸ List.mem_cons_self a rest)
        · exact Or.inr (List.mem_cons_of_mem a hx')
      · obtain ⟨hl, hm⟩ := ih _ c hc
        refine ⟨hl, fun x hx => ?_⟩
        rcases hm x hx with hx' | hx'
        · exact Or.inl hx'
        · exact Or.inr (List.mem_cons_of_mem a hx')

theorem combosAux_ne_nil (size : ℕ) :
    ∀ (arr currentCombo : List α), currentCombo.length ≤ size →
      size ≤ currentCombo.length + arr.length → combosAux size arr currentCombo ≠ [] := by
  intro arr
  induction arr with
  | nil =>
    intro cur hle hge
    rw [combosAux]
    have : cur.length = size := by simp at hge; omega
    simp [this]
  | cons a rest ih =>
    intro cur hle hge
    rw [combosAux]
    by_cases h : cur.length = size
    · simp [h]
    · rw [if_neg h]
      intro hnil
      rw [List.append_eq_nil] at hnil
      refine ih (cur ++ [a]) ?_ ?_ hnil.1
      · simp only [List.length_append, List.length_singleton]
        omega
      · simp only [List.length_append, List.length_singleton, List.length_cons] at *
        omega

theorem getCombinations_mem_spec {cards : List Card} {c : List Card}
    (hc : c ∈ getCombinations cards 5) : c.length = 5 ∧ ∀ x ∈ c, x ∈ cards := by
  obtain ⟨hl, hm⟩ := combosAux_mem_spec 5 cards [] c hc
  exact ⟨hl, fun x hx => (hm x hx).resolve_left (by simp)⟩

theorem getCombinations_ne_nil {cards : List Card} (h5 : 5 ≤ cards.length) :
    getCombinations cards 5 ≠ [] := by
  refine combosAux_ne_nil 5 cards [] (by simp) (by simpa using h5)

/-- The fold of `evaluateHand` computes a maximum under `compareHands`:
the result is the seed or one of the classified combinations, every
classified combination compares at most equal to it, and the seed does
too. -/
theorem foldl_best_spec (L : List (List Card)) (b : HandResult)
    (hL : ∀ c ∈ L, GoodHR (getHandRank c)) (hb : SOK b) :
    SOK (L.foldl evalStep b) ∧
    (L.foldl evalStep b = b ∨ ∃ c ∈ L, L.foldl evalStep b = getHandRank c) ∧
    (∀ c ∈ L, compareHands (getHandRank c) (L.foldl evalStep b) ≤ 0) ∧
    compareHands b (L.foldl evalStep b) ≤ 0 := by
  induction L generalizing b with
  | nil =>
    refine ⟨hb, Or.inl rfl, by simp, ?_⟩
    simp only [List.foldl_nil]
    rw [compareHands_self]
  | cons c L ih =>
    have hGc : GoodHR (getHandRank c) := hL c (List.mem_cons_self c L)
    have hLt : ∀ d ∈ L, GoodHR (getHandRank d) :=
      fun d hd => hL d (List.mem_cons_of_mem c hd)
    simp only [List.foldl_cons]
    by_cases hcmp : compareHands b (getHandRank c) < 0
    · have hb' : SOK (getHandRank c) := Or.inl hGc
      have step : evalStep b c = getHandRank c := by
        rw [evalStep]
        exact if_pos hcmp
      rw [step]
      obtain ⟨sokr, hor, hall, hbr⟩ := ih (getHandRank c) hLt hb'
      refine ⟨sokr, ?_, ?_, ?_⟩
      · rcases hor with hor | hor
        · exact Or.inr ⟨c, List.mem_cons_self c L, hor⟩
        · obtain ⟨d, hd, hdr⟩ := hor
          exact Or.inr ⟨d, List.mem_cons_of_mem c hd, hdr⟩
      · intro d hd
        rcases List.mem_cons.1 hd with hd' | hd'
        · subst hd'
          exact hbr
        · exact hall d hd'
      · exact le_of_lt ((sok_trans hb hb' sokr).2.2 hcmp hbr)
    · have step : evalStep b c = b := by
        rw [evalStep]
        exact if_neg hcmp
      rw [step]
      obtain ⟨sokr, hor, hall, hbr⟩ := ih b hLt hb
      refine ⟨sokr, ?_, ?_, hbr⟩
      · rcases hor with hor | hor
        · exact Or.inl hor
        · obtain ⟨d, hd, hdr⟩ := hor
          exact Or.inr ⟨d, List.mem_cons_of_mem c hd, hdr⟩
      · intro d hd
        rcases List.mem_cons.1 hd with hd' | hd'
        · rw [hd']
          have hce : compareHands (getHandRank c) b ≤ 0 := by
            have hanti := compareHands_antisymm b (getHandRank c)
            omega
          exact (sok_trans (Or.inl hGc) hb sokr).1 hce hbr
        · exact hall d hd'

/-! ### Claim theorems for the hand evaluator -/

/-- C1: the code misclassifies the wheel straight flush.  For a 5-card
hand all of one suit with values 14-5-4-3-2, `getHandRank` returns
`FLUSH` (the straight-flush test uses the plain consecutive-values check,
which rejects the wheel, and the flush branch precedes the ace-low
straight branch), not `STRAIGHT_FLUSH` as the specification states. -/
theorem getHandRank_wheel_flush_is_flush :
    (∀ s : Suit,
      getHandRank [⟨s, 14⟩, ⟨s, 5⟩, ⟨s, 4⟩, ⟨s, 3⟩, ⟨s, 2⟩] =
        ⟨FLUSH, [14, 5, 4, 3, 2]⟩) ∧
    FLUSH ≠ STRAIGHT_FLUSH := by
  refine ⟨fun s => ?_, by decide⟩
  cases s <;> decide

/-- C6: `evaluateHand` on 5 to 7 genuine cards returns the maximum of
`getHandRank` over all 5-card combinations under `compareHands`: some
combination ties the returned result and no combination beats it. -/
theorem evaluateHand_is_max (cards : List Card) (h5 : 5 ≤ cards.length)
    (h7 : cards.length ≤ 7) (hval : ∀ c ∈ cards, 2 ≤ c.value) :
    (∃ combo ∈ getCombinations cards 5,
      compareHands (evaluateHand cards) (getHandRank combo) = 0) ∧
    (∀ combo ∈ getCombinations cards 5,
      compareHands (getHandRank combo) (evaluateHand cards) ≤ 0) := by
  have hL : ∀ c ∈ getCombinations cards 5, GoodHR (getHandRank c) := by
    intro c hc
    obtain ⟨hlen, hmem⟩ := getCombinations_mem_spec hc
    exact goodHR_getHandRank c hlen (fun x hx => hval x (hmem x hx))
  obtain ⟨sokr, hor, hall, hbr⟩ :=
    foldl_best_spec (getCombinations cards 5) initialBest hL (Or.inr rfl)
  rw [evaluateHand]
  refine ⟨?_, hall⟩
  rcases hor with hor | hor
  · exfalso
    obtain ⟨c, hc⟩ := List.exists_mem_of_ne_nil _ (getCombinations_ne_nil h5)
    have h1 := hall c hc
    have h2 := compareHands_init_gt (hL c hc)
    rw [hor] at h1
    omega
  · obtain ⟨c, hc, hcr⟩ := hor
    refine ⟨c, hc, ?_⟩
    rw [hcr, compareHands_self]

/-- Witness for C6 at a concrete 7-card input. -/
theorem evaluateHand_is_max_witness :
    (5 ≤ ([⟨Suit.hearts, 2⟩, ⟨Suit.hearts, 3⟩, ⟨Suit.spades, 9⟩, ⟨Suit.spades, 8⟩,
        ⟨Suit.spades, 7⟩, ⟨Suit.spades, 6⟩, ⟨Suit.spades, 5⟩] : List Card).length) ∧
    ((∃ combo ∈ getCombinations [⟨Suit.hearts, 2⟩, ⟨Suit.hearts, 3⟩, ⟨Suit.spades, 9⟩,
        ⟨Suit.spades, 8⟩, ⟨Suit.spades, 7⟩, ⟨Suit.spades, 6⟩, ⟨Suit.spades, 5⟩] 5,
      compareHands (evaluateHand [⟨Suit.hearts, 2⟩, ⟨Suit.hearts, 3⟩, ⟨Suit.spades, 9⟩,
        ⟨Suit.spades, 8⟩, ⟨Suit.spades, 7⟩, ⟨Suit.spades, 6⟩, ⟨Suit.spades, 5⟩])
        (getHandRank combo) = 0) ∧
    (∀ combo ∈ getCombinations [⟨Suit.hearts, 2⟩, ⟨Suit.hearts, 3⟩, ⟨Suit.spades, 9⟩,
        ⟨Suit.spades, 8⟩, ⟨Suit.spades, 7⟩, ⟨Suit.spades, 6⟩, ⟨Suit.spades, 5⟩] 5,
      compareHands (getHandRank combo) (evaluateHand [⟨Suit.hearts, 2⟩, ⟨Suit.hearts, 3⟩,
        ⟨Suit.spades, 9⟩, ⟨Suit.spades, 8⟩, ⟨Suit.spades, 7⟩, ⟨Suit.spades, 6⟩,
        ⟨Suit.spades, 5⟩]) ≤ 0)) :=
  ⟨by decide,
    evaluateHand_is_max _ (by decide) (by decide) (by decide)⟩

/-- C7: `compareHands` compares category first, then the tiebreak lists
lexicographically; it is reflexive on equal results, sign-antisymmetric,
and transitive on results whose tiebreak lengths agree within a
category. -/
theorem compareHands_strict_weak_order :
    (∀ h : HandResult, compareHands h h = 0) ∧
    (∀ a b : HandResult, 0 < compareHands a b ↔ compareHands b a < 0) ∧
    (∀ a b c : HandResult,
      (a.rank = b.rank → a.values.length = b.values.length) →
      (b.rank = c.rank → b.values.length = c.values.length) →
      0 < compareHands a b → 0 < compareHands b c → 0 < compareHands a c) := by
  refine ⟨compareHands_self, fun a b => ?_, fun a b c hab hbc h1 h2 => ?_⟩
  · rw [compareHands_antisymm a b]
    omega
  · have hba : compareHands b a < 0 := by
      have h := compareHands_antisymm a b
      omega
    have hcb : compareHands c b < 0 := by
      have h := compareHands_antisymm b c
      omega
    have hca : compareHands c a < 0 :=
      (compareHands_trans (fun h => (hbc h.symm).symm) (fun h => (hab h.symm).symm)).2.1
        (le_of_lt hcb) hba
    have h := compareHands_antisymm a c
    omega

def hrTwoPairHigh : HandResult := ⟨TWO_PAIR, [14, 13, 12]⟩

def hrTwoPairLow : HandResult := ⟨TWO_PAIR, [14, 13, 10]⟩

def hrOnePair : HandResult := ⟨ONE_PAIR, [14, 5, 4, 3]⟩

/-- Witness for C7 at concrete hand results. -/
theorem compareHands_strict_weak_order_witness :
    (hrTwoPairHigh.rank = hrTwoPairLow.rank →
      hrTwoPairHigh.values.length = hrTwoPairLow.values.length) ∧
    (hrTwoPairLow.rank = hrOnePair.rank →
      hrTwoPairLow.values.length = hrOnePair.values.length) ∧
    0 < compareHands hrTwoPairHigh hrTwoPairLow ∧
    0 < compareHands hrTwoPairLow hrOnePair ∧
    0 < compareHands hrTwoPairHigh hrOnePair :=
  ⟨by decide, by decide, by decide, by decide,
    compareHands_strict_weak_order.2.2 hrTwoPairHigh hrTwoPairLow hrOnePair
      (by decide) (by decide) (by decide) (by decide)⟩

/-! ### Game state

The mutable fields of the `PokerGame` class.  `smallBlind`/`bigBlind` are
the constant instance fields 10 and 20.  The display-only `name` field of
`Player` is omitted. -/

inductive PlayerId
  | player | ai
deriving DecidableEq, Repr, Inhabited

structure Player where
  id : PlayerId
  cards : List Card
  stack : ℚ
  currentBet : ℚ
  hasActed : Bool
  isAllIn : Bool
  folded : Bool
  isDealer : Bool
  handResult : Option HandResult
deriving DecidableEq, Repr

instance : Inhabited Player :=
  ⟨⟨PlayerId.player, [], 0, 0, false, false, false, false, none⟩⟩

inductive GameStage
  | preDeal | preflop | flop | turn | river | showdown
deriving DecidableEq, Repr

structure GameState where
  players : List Player
  deck : List Card
  communityCards : List Card
  pot : ℚ
  currentPlayerIndex : ℕ
  currentBet : ℚ
  dealerIndex : ℕ
  stage : GameStage
deriving DecidableEq, Repr

def smallBlind : ℚ := 10

def bigBlind : ℚ := 20

/-- Embedding of `playerBet` from the source: deduct `min(amount, stack)`, add it to the
participant's current contribution, and mark all-in when the stack hits 0. -/
def playerBet (p : Player) (amount : ℚ) : Player :=
  let actualAmount := min amount p.stack
  let p' := { p with stack := p.stack - actualAmount,
                     currentBet := p.currentBet + actualAmount }
  if p'.stack = 0 then { p' with isAllIn := true } else p'

/-- Embedding of `this.players.find(p => p.id === pid)!`; the two players have distinct
ids, so the first match is the unique one. -/
def findById (s : GameState) (pid : PlayerId) : Player :=
  (s.players.find? (fun p => p.id == pid)).getD default

/-- In-place mutation of the player found by id (the source mutates the
object returned by `find`; ids are unique, so mapping over the matching
entries is the same update). -/
def updateById (s : GameState) (pid : PlayerId) (f : Player → Player) : GameState :=
  { s with players := s.players.map (fun p => if p.id == pid then f p else p) }

/-- In-place mutation of `players[i]`. -/
def modifyAt (s : GameState) (i : ℕ) (f : Player → Player) : GameState :=
  match s.players.get? i with
  | none => s
  | some p => { s with players := s.players.set i (f p) }

/-- Embedding of `endPlayerTurn` from the source: mark the acting player as having
acted and advance the turn index. -/
def endPlayerTurn (s : GameState) : GameState :=
  let s1 := modifyAt s s.currentPlayerIndex (fun p => { p with hasActed := true })
  { s1 with currentPlayerIndex := (s1.currentPlayerIndex + 1) % s1.players.length }

/-- Embedding of `isBettingRoundOver` from the source. -/
def isBettingRoundOver (s : GameState) : Bool :=
  let activePlayers := s.players.filter (fun p => !p.folded && !p.isAllIn)
  if activePlayers.length ≤ 1 then true
  else
    activePlayers.all (fun p => p.hasActed) &&
      activePlayers.all (fun p => p.currentBet == activePlayers.headI.currentBet)

/-- Embedding of `collectBets` from the source: move every current contribution into
the pot and reset the table bet level. -/
def collectBets (s : GameState) : GameState :=
  { s with pot := s.players.foldl (fun acc p => acc + p.currentBet) s.pot,
           players := s.players.map (fun p => { p with currentBet := 0 }),
           currentBet := 0 }

/-- Embedding of `awardPot` from the source: each winner receives `pot / winners.length`
(plain rational division) and the pot is zeroed.  The source passes an
array of player object references; membership of the winner set is
modelled by the predicate `isWinner`. -/
def awardPot (s : GameState) (isWinner : Player → Bool) : GameState :=
  let winners := s.players.filter isWinner
  let amountWon := s.pot / (winners.length : ℚ)
  let players := s.players.map (fun p =>
    if isWinner p then { p with stack := p.stack + amountWon } else p)
  { s with players := players, pot := 0 }

/-! ### Dealing

`deck.pop()` on an empty JS array returns `undefined` and leaves the
array unchanged; the `if (card)` guards then skip the push.  Taking the
head of an empty list models the same silent behaviour. -/

/-- Embedding of `burnCard` from the source (`this.deck.pop()`, result discarded). -/
def burnCard (s : GameState) : GameState :=
  { s with deck := s.deck.tail }

/-- One `const card = this.deck.pop(); if (card) communityCards.push(card)` step. -/
def dealOneToCommunity (s : GameState) : GameState :=
  match s.deck with
  | [] => s
  | c :: rest => { s with deck := rest, communityCards := s.communityCards ++ [c] }

/-- Embedding of `startBettingRound` from the source: reset `hasActed` for players who
are not all-in; after pre-flop also reset contributions and the bet level
and set the acting player to the one after the dealer. -/
def startBettingRound (s : GameState) : GameState :=
  let s1 := { s with players := s.players.map (fun p =>
      if !p.isAllIn then { p with hasActed := false } else p) }
  if s1.stage ≠ GameStage.preflop then
    { s1 with currentPlayerIndex := (s1.dealerIndex + 1) % s1.players.length,
              currentBet := 0,
              players := s1.players.map (fun p => { p with currentBet := 0 }) }
  else s1

/-- The dealing part of `dealFlop` (stage set, burn, three cards). -/
def dealFlopCards (s : GameState) : GameState :=
  dealOneToCommunity (dealOneToCommunity (dealOneToCommunity
    (burnCard { s with stage := GameStage.flop })))

/-- Embedding of `dealFlop` from the source (dealing followed by `startBettingRound`). -/
def dealFlop (s : GameState) : GameState :=
  startBettingRound (dealFlopCards s)

/-- The dealing part of `dealTurn`. -/
def dealTurnCards (s : GameState) : GameState :=
  dealOneToCommunity (burnCard { s with stage := GameStage.turn })

/-- Embedding of `dealTurn` from the source. -/
def dealTurn (s : GameState) : GameState :=
  startBettingRound (dealTurnCards s)

/-- The dealing part of `dealRiver`. -/
def dealRiverCards (s : GameState) : GameState :=
  dealOneToCommunity (burnCard { s with stage := GameStage.river })

/-- Embedding of `dealRiver` from the source. -/
def dealRiver (s : GameState) : GameState :=
  startBettingRound (dealRiverCards s)

/-- One hole-card deal to `players[i]`. -/
def dealOneToPlayerAt (s : GameState) (i : ℕ) : GameState :=
  match s.deck with
  | [] => s
  | c :: rest =>
    modifyAt { s with deck := rest } i (fun p => { p with cards := p.cards ++ [c] })

/-- One pass of the hole-card loop (`for player of players: pop, push`). -/
def dealHolePass (s : GameState) : GameState :=
  (List.range s.players.length).foldl dealOneToPlayerAt s

/-- Embedding of `dealHoleCards` from the source: set the stage, deal one card to each
player per pass for two passes, then start the betting round. -/
def dealHoleCards (s : GameState) : GameState :=
  startBettingRound (dealHolePass (dealHolePass { s with stage := GameStage.preflop }))

/-- Embedding of `postBlinds` from the source: small blind, big blind, table bet level
becomes the big blind, first action belongs to the player after the big
blind. -/
def postBlinds (s : GameState) : GameState :=
  let smallBlindIndex := (s.dealerIndex + 1) % s.players.length
  let bigBlindIndex := (s.dealerIndex + 2) % s.players.length
  let s1 := modifyAt s smallBlindIndex (fun p => playerBet p smallBlind)
  let s2 := modifyAt s1 bigBlindIndex (fun p => playerBet p bigBlind)
  { s2 with currentBet := bigBlind,
            currentPlayerIndex := (bigBlindIndex + 1) % s2.players.length }

/-- The reset part of `startNewHand`: clear the table, rotate the dealer,
reset every player (stacks persist unless busted to 0, which refills to
1000). -/
def resetForNewHand (s : GameState) : GameState :=
  let dealerIndex := (s.dealerIndex + 1) % s.players.length
  { s with communityCards := [], pot := 0, currentBet := 0,
           stage := GameStage.preDeal, dealerIndex := dealerIndex,
           players := s.players.mapIdx (fun i p =>
             { p with cards := [], currentBet := 0, folded := false,
                      isAllIn := false, hasActed := false, handResult := none,
                      isDealer := i == dealerIndex,
                      stack := if p.stack = 0 then 1000 else p.stack }) }

/-- Embedding of `startNewHand` followed by its scheduled continuation: fresh shuffled
deck `d`, blinds posted, hole cards dealt.  The deck is a parameter
because the shuffle draws on the external randomness source (any
permutation of the fresh deck is possible). -/
def startHand (s : GameState) (d : List Card) : GameState :=
  dealHoleCards (postBlinds { resetForNewHand s with deck := d })

/-! ### Showdown -/

/-- The hand-result assignment loop of `showdown`. -/
def assignResults (s : GameState) : GameState :=
  { s with players := s.players.map (fun p =>
      if !p.folded then
        { p with handResult := some (evaluateHand (p.cards ++ s.communityCards)) }
      else p) }

/-- Embedding of `p.handResult!` — at showdown the result was just assigned for every
non-folded player, so the default is never used there. -/
def resultOf (p : Player) : HandResult :=
  p.handResult.getD initialBest

/-- The winner-selection loop of `showdown`: start with the first active
player, replace on a strictly better hand, append on an exact tie. -/
def computeWinners : List Player → List Player
  | [] => []
  | a :: rest =>
    rest.foldl (fun winners p =>
      let comparison := compareHands (resultOf winners.headI) (resultOf p)
      if comparison < 0 then [p]
      else if comparison = 0 then winners ++ [p]
      else winners) [a]

/-- Embedding of `showdown` up to the winner computation: stage set, hands evaluated. -/
def showdownPrep (s : GameState) : GameState :=
  assignResults { s with stage := GameStage.showdown }

/-- The winners of the showdown on state `s` (after bets are collected). -/
def showdownWinners (s : GameState) : List Player :=
  computeWinners ((showdownPrep s).players.filter (fun p => !p.folded))

/-- Embedding of `showdown` from the source: evaluate hands, determine winners, award
the pot.  The source identifies winners by object reference; the two
player records always differ (distinct `id`), so list membership is the
same test. -/
def showdownF (s : GameState) : GameState :=
  let s1 := showdownPrep s
  let winners := computeWinners (s1.players.filter (fun p => !p.folded))
  awardPot s1 (fun p => winners.contains p)

/-! ### AI hand strength -/

/-- Embedding of `evaluateAIHandStrength` from the source.  JS `0.05` is exactly
`5 / 100`.  When the best hand is a royal flush the source reads
`values[0]` of an empty array (`undefined`, giving `NaN`); here `headI`
returns 0 instead — no theorem below touches that case. -/
def evaluateAIHandStrength (aiCards communityCards : List Card) : ℚ :=
  let combinedCards := aiCards ++ communityCards
  if combinedCards.length < 2 then 0
  else
    let result := evaluateHand combinedCards
    let strength := (result.rank : ℚ) / (ROYAL_FLUSH : ℚ) +
      ((result.values.headI : ℚ) / 13) * (5 / 100)
    min strength 1

/-- The guard condition under which `evaluateAIHandStrength` reaches its
`evaluateHand` call (source: early `return 0` when
`combinedCards.length < 2`). -/
def aiEvalReachesEvaluateHand (aiCards communityCards : List Card) : Bool :=
  !((aiCards ++ communityCards).length < 2)

/-! ### Player action handlers -/

/-- Embedding of `handlePlayerFold` (the state part: mark folded, end the turn). -/
def handlePlayerFold (s : GameState) : GameState :=
  endPlayerTurn (updateById s PlayerId.player (fun p => { p with folded := true }))

/-- Embedding of `handlePlayerCheckCall`: pay the required call when it is positive,
otherwise check. -/
def handlePlayerCheckCall (s : GameState) : GameState :=
  let p := findById s PlayerId.player
  let callAmount := s.currentBet - p.currentBet
  let s1 :=
    if callAmount > 0 then updateById s PlayerId.player (fun q => playerBet q callAmount)
    else s
  endPlayerTurn s1

/-- Embedding of `minRaise` of `handlePlayerBetRaise`. -/
def minRaiseOf (s : GameState) : ℚ :=
  if s.currentBet > 0 then s.currentBet * 2 else bigBlind

/-- Embedding of `minBet` of `handlePlayerBetRaise`. -/
def minBetOf (s : GameState) : ℚ :=
  max bigBlind (minRaiseOf s - (findById s PlayerId.player).currentBet)

/-- The slider bounds `handlePlayerBetRaise` offers when the player can
cover the minimum (`showBetSlider(minBet, stack + currentBet, minBet)`);
the slider value is the target contribution level. -/
def betSliderMinOf (s : GameState) : ℚ := minBetOf s

def betSliderMaxOf (s : GameState) : ℚ :=
  (findById s PlayerId.player).stack + (findById s PlayerId.player).currentBet

/-- The `player.stack <= minBet` branch of `handlePlayerBetRaise`: forced
all-in for the whole stack; the table bet level becomes the maximum of
its old value and the new contribution. -/
def handlePlayerBetRaiseAllIn (s : GameState) : GameState :=
  let s1 := updateById s PlayerId.player (fun p => playerBet p p.stack)
  let newBet := max s1.currentBet (findById s1 PlayerId.player).currentBet
  endPlayerTurn { s1 with currentBet := newBet }

/-- Embedding of `handlePlayerConfirmBet`: wager up to the chosen target contribution
`betAmount`; the table bet level becomes the player's new contribution. -/
def handlePlayerConfirmBet (s : GameState) (betAmount : ℚ) : GameState :=
  let s1 := updateById s PlayerId.player (fun p => playerBet p (betAmount - p.currentBet))
  let s2 := { s1 with currentBet := (findById s1 PlayerId.player).currentBet }
  endPlayerTurn s2

/-! ### AI action handlers -/

/-- The call amount the AI faces (`this.currentBet - ai.currentBet`). -/
def aiCallAmount (s : GameState) : ℚ :=
  s.currentBet - (findById s PlayerId.ai).currentBet

/-- The pot odds `getAIAction` computes for a positive call amount. -/
def aiPotOdds (s : GameState) : ℚ :=
  aiCallAmount s / (s.pot + aiCallAmount s)

/-- The hand strength `getAIAction` computes for the AI. -/
def aiStrengthOf (s : GameState) : ℚ :=
  evaluateAIHandStrength (findById s PlayerId.ai).cards s.communityCards

/-- Embedding of `aiFold` from the source. -/
def aiFold (s : GameState) : GameState :=
  endPlayerTurn (updateById s PlayerId.ai (fun p => { p with folded := true }))

/-- Embedding of `aiCheck` from the source. -/
def aiCheck (s : GameState) : GameState :=
  endPlayerTurn s

/-- Embedding of `aiCall` from the source (`playerBet(ai, callAmount)`). -/
def aiCall (s : GameState) : GameState :=
  endPlayerTurn (updateById s PlayerId.ai (fun p => playerBet p (aiCallAmount s)))

/-- Embedding of `aiBet` from the source. -/
def aiBet (s : GameState) (amount : ℚ) : GameState :=
  let s1 := updateById s PlayerId.ai (fun p => playerBet p amount)
  endPlayerTurn { s1 with currentBet := (findById s1 PlayerId.ai).currentBet }

/-- Embedding of `aiRaise` from the source (`playerBet(ai, amount - ai.currentBet)`). -/
def aiRaise (s : GameState) (amount : ℚ) : GameState :=
  let s1 := updateById s PlayerId.ai
    (fun p => playerBet p (amount - (findById s PlayerId.ai).currentBet))
  endPlayerTurn { s1 with currentBet := (findById s1 PlayerId.ai).currentBet }

/-- The initial state built by the `PokerGame` constructor: two players
with stacks of 1000, the human marked dealer, everything else empty. -/
def initPlayers : List Player :=
  [⟨PlayerId.player, [], 1000, 0, false, false, false, true, none⟩,
    ⟨PlayerId.ai, [], 1000, 0, false, false, false, false, none⟩]

def initGameState : GameState :=
  ⟨initPlayers, [], [], 0, 0, 0, 0, GameStage.preDeal⟩

/-! ### Claim theorems for the betting state machine -/

/-- The round-over condition as the specification words it. -/
def bettingRoundOverSpec (s : GameState) : Prop :=
  (s.players.filter (fun p => !p.folded && !p.isAllIn)).length ≤ 1 ∨
    ((∀ p ∈ s.players.filter (fun p => !p.folded && !p.isAllIn), p.hasActed = true) ∧
      ∀ p ∈ s.players.filter (fun p => !p.folded && !p.isAllIn),
        ∀ q ∈ s.players.filter (fun p => !p.folded && !p.isAllIn),
          p.currentBet = q.currentBet)

/-- C4: `isBettingRoundOver` returns true exactly when at most one
non-folded, non-all-in participant remains, or every such participant has
acted and all their current-street contributions are equal. -/
theorem isBettingRoundOver_iff_spec (s : GameState) :
    isBettingRoundOver s = true ↔ bettingRoundOverSpec s := by
  unfold isBettingRoundOver bettingRoundOverSpec
  by_cases hle : (s.players.filter (fun p => !p.folded && !p.isAllIn)).length ≤ 1
  · simp [hle]
  · rw [if_neg hle]
    simp only [Bool.and_eq_true, List.all_eq_true, beq_iff_eq]
    constructor
    · rintro ⟨hacted, heq⟩
      exact Or.inr ⟨hacted, fun p hp q hq => (heq p hp).trans (heq q hq).symm⟩
    · rintro (h | ⟨hacted, heq⟩)
      · exact absurd h hle
      · refine ⟨hacted, fun p hp => heq p hp _ (headI_mem ?_)⟩
        intro h0
        rw [h0] at hle
        simp at hle

/-- C8: `playerBet` deducts exactly `min(amount, stack)`, never drives the
stack negative, accepts over-stack amounts by capping them, and (for a
participant not already all-in) sets the all-in flag exactly when the
stack reaches zero. -/
theorem playerBet_caps_and_all_in (p : Player) (amount : ℚ)
    (hamt : 0 ≤ amount) (hstk : 0 ≤ p.stack) :
    (playerBet p amount).stack = p.stack - min amount p.stack ∧
    (playerBet p amount).currentBet = p.currentBet + min amount p.stack ∧
    0 ≤ (playerBet p amount).stack ∧
    (p.isAllIn = false →
      ((playerBet p amount).isAllIn = true ↔ (playerBet p amount).stack = 0)) := by
  have hmin : min amount p.stack ≤ p.stack := min_le_right _ _
  unfold playerBet
  dsimp only
  split_ifs with h0
  · exact ⟨rfl, rfl, by show (0:ℚ) ≤ p.stack - min amount p.stack; linarith,
      fun _ => ⟨fun _ => h0, fun _ => rfl⟩⟩
  · refine ⟨rfl, rfl, by show (0:ℚ) ≤ p.stack - min amount p.stack; linarith,
      fun hall => ⟨fun h => ?_, fun h => ?_⟩⟩
    · have h' : p.isAllIn = true := h
      simp [hall] at h'
    · have h' : p.stack - min amount p.stack = 0 := h
      exact absurd h' h0

def witnessBettor : Player :=
  ⟨PlayerId.player, [], 10, 0, false, false, false, false, none⟩

/-- Witness for C8: a wager of 25 against a stack of 10 deducts the full
stack of 10 and marks the participant all-in. -/
theorem playerBet_caps_and_all_in_witness :
    (0 ≤ (25 : ℚ)) ∧ (0 ≤ witnessBettor.stack) ∧
    ((playerBet witnessBettor 25).stack = witnessBettor.stack - min 25 witnessBettor.stack ∧
      (playerBet witnessBettor 25).currentBet =
        witnessBettor.currentBet + min 25 witnessBettor.stack ∧
      0 ≤ (playerBet witnessBettor 25).stack ∧
      (witnessBettor.isAllIn = false →
        ((playerBet witnessBettor 25).isAllIn = true ↔
          (playerBet witnessBettor 25).stack = 0))) :=
  ⟨by norm_num, by norm_num [witnessBettor],
    playerBet_caps_and_all_in witnessBettor 25 (by norm_num) (by norm_num [witnessBettor])⟩

theorem dealOneToPlayerAt_empty {s : GameState} (h : s.deck = []) (i : ℕ) :
    dealOneToPlayerAt s i = s := by
  rw [dealOneToPlayerAt, h]

theorem foldl_dealOne_empty (l : List ℕ) {s : GameState} (h : s.deck = []) :
    l.foldl dealOneToPlayerAt s = s := by
  induction l with
  | nil => rfl
  | cons i rest ih =>
    rw [List.foldl_cons, dealOneToPlayerAt_empty h]
    exact ih

/-- C2: dealing from an exhausted deck does not fail — `deck.pop()` on an
empty array yields `undefined`, the `if (card)` guards skip the pushes and
`burnCard` is a no-op, so the dealing operations silently deal nothing
(no assertion, contrary to the specification's error-handling design). -/
theorem dealing_empty_deck_silent (s : GameState) (h : s.deck = []) :
    burnCard s = s ∧
    dealFlopCards s = { s with stage := GameStage.flop } ∧
    dealTurnCards s = { s with stage := GameStage.turn } ∧
    dealRiverCards s = { s with stage := GameStage.river } ∧
    dealHolePass s = s := by
  obtain ⟨pl, dk, cc, pot, cpi, cb, di, st⟩ := s
  have h' : dk = [] := h
  subst h'
  refine ⟨rfl, rfl, rfl, rfl, ?_⟩
  exact foldl_dealOne_empty _ rfl

/-- Witness for C2 at the constructor state, whose deck is empty. -/
theorem dealing_empty_deck_silent_witness :
    initGameState.deck = [] ∧
    (burnCard initGameState = initGameState ∧
      dealFlopCards initGameState = { initGameState with stage := GameStage.flop } ∧
      dealTurnCards initGameState = { initGameState with stage := GameStage.turn } ∧
      dealRiverCards initGameState = { initGameState with stage := GameStage.river } ∧
      dealHolePass initGameState = initGameState) :=
  ⟨rfl, dealing_empty_deck_silent initGameState rfl⟩

/-- C10 counterexample: pre-flop the AI holds 2 cards and no community
cards are out; the guard of `evaluateAIHandStrength` (`length < 2`) does
not stop this call, so `evaluateHand` is invoked with 2 cards — fewer
than 5 — and the enumeration of 5-card subsets is empty, returning the
seed result and strength 0. -/
theorem aiStrength_preflop_two_cards :
    aiEvalReachesEvaluateHand [⟨Suit.hearts, 14⟩, ⟨Suit.diamonds, 14⟩] [] = true ∧
    (([⟨Suit.hearts, 14⟩, ⟨Suit.diamonds, 14⟩] : List Card) ++ []).length < 5 ∧
    evaluateAIHandStrength [⟨Suit.hearts, 14⟩, ⟨Suit.diamonds, 14⟩] [] = 0 := by
  refine ⟨by decide, by decide, ?_⟩
  have hcomb :
      getCombinations [(⟨Suit.hearts, 14⟩ : Card), ⟨Suit.diamonds, 14⟩] 5 = [] := by
    simp [getCombinations, combosAux]
  rw [evaluateAIHandStrength]
  rw [if_neg (by simp)]
  rw [evaluateHand]
  simp only [List.append_nil]
  rw [hcomb]
  norm_num [initialBest, HIGH_CARD, ROYAL_FLUSH, List.foldl_nil]

/-- C10 amended: `evaluateAIHandStrength` reaches its `evaluateHand` call
whenever hole plus community cards number at least 2 (not 5); with only
the two pre-flop hole cards the strength degenerates to 0. -/
theorem evaluateAIHandStrength_guard :
    (∀ aiCards communityCards : List Card,
      (aiEvalReachesEvaluateHand aiCards communityCards = true ↔
        2 ≤ (aiCards ++ communityCards).length)) ∧
    (∀ c1 c2 : Card, evaluateAIHandStrength [c1, c2] [] = 0) := by
  constructor
  · intro a c
    rw [aiEvalReachesEvaluateHand]
    simp
  · intro c1 c2
    have hcomb : getCombinations [c1, c2] 5 = [] := by
      simp [getCombinations, combosAux]
    rw [evaluateAIHandStrength]
    rw [if_neg (by simp)]
    rw [evaluateHand]
    simp only [List.append_nil]
    rw [hcomb]
    norm_num [initialBest, HIGH_CARD, ROYAL_FLUSH, List.foldl_nil]

/-! ### Chip conservation (C5) -/

/-- The conserved quantity: all stacks plus all current-street
contributions plus the pot. -/
def chipSum (s : GameState) : ℚ :=
  (s.players.map (fun p => p.stack + p.currentBet)).sum + s.pot

theorem playerBet_chip (p : Player) (amount : ℚ) :
    (playerBet p amount).stack + (playerBet p amount).currentBet =
      p.stack + p.currentBet := by
  unfold playerBet
  dsimp only
  split_ifs with h0 <;> ring

theorem chipSum_setTableBet (s : GameState) (x : ℚ) :
    chipSum { s with currentBet := x } = chipSum s := rfl

theorem chipSum_setIndex (s : GameState) (i : ℕ) :
    chipSum { s with currentPlayerIndex := i } = chipSum s := rfl

theorem chipSum_updateById (s : GameState) (pid : PlayerId) (f : Player → Player)
    (hf : ∀ p, (f p).stack + (f p).currentBet = p.stack + p.currentBet) :
    chipSum (updateById s pid f) = chipSum s := by
  unfold chipSum updateById
  congr 1
  rw [List.map_map]
  apply congrArg
  apply List.map_congr_left
  intro p _
  by_cases hid : p.id == pid
  · simp [Function.comp, hid, hf p]
  · simp [Function.comp, hid]

theorem sum_map_set (m : Player → ℚ) :
    ∀ (l : List Player) (i : ℕ) (p q : Player), l.get? i = some p → m q = m p →
      ((l.set i q).map m).sum = (l.map m).sum := by
  intro l
  induction l with
  | nil =>
    intro i p q h
    simp at h
  | cons x xs ih =>
    intro i p q h hm
    cases i with
    | zero =>
      simp only [List.get?_cons_zero, Option.some_inj] at h
      subst h
      simp [List.set, hm]
    | succ n =>
      simp only [List.get?_cons_succ] at h
      simp only [List.set, List.map_cons, List.sum_cons]
      rw [ih n p q h hm]

theorem chipSum_modifyAt (s : GameState) (i : ℕ) (f : Player → Player)
    (hf : ∀ p, (f p).stack + (f p).currentBet = p.stack + p.currentBet) :
    chipSum (modifyAt s i f) = chipSum s := by
  unfold modifyAt
  cases hget : s.players.get? i with
  | none => rfl
  | some p =>
    unfold chipSum
    dsimp only
    congr 1
    exact sum_map_set _ s.players i p (f p) hget (hf p)

theorem chipSum_endPlayerTurn (s : GameState) :
    chipSum (endPlayerTurn s) = chipSum s := by
  unfold endPlayerTurn
  dsimp only
  rw [chipSum_setIndex]
  exact chipSum_modifyAt s _ _ (fun p => rfl)

theorem foldl_add_currentBet (l : List Player) (init : ℚ) :
    l.foldl (fun acc p => acc + p.currentBet) init =
      init + (l.map (fun p => p.currentBet)).sum := by
  induction l generalizing init with
  | nil => simp
  | cons x xs ih =>
    simp only [List.foldl_cons, List.map_cons, List.sum_cons, ih]
    ring

theorem chipSum_collectBets (s : GameState) : chipSum (collectBets s) = chipSum s := by
  unfold chipSum collectBets
  dsimp only
  rw [List.map_map, foldl_add_currentBet]
  have h1 : (s.players.map ((fun p => p.stack + p.currentBet) ∘
      (fun p => { p with currentBet := 0 }))).sum = (s.players.map (fun p => p.stack)).sum := by
    apply congrArg
    apply List.map_congr_left
    intro p _
    simp [Function.comp]
  have h2 : (s.players.map (fun p => p.stack + p.currentBet)).sum =
      (s.players.map (fun p => p.stack)).sum +
        (s.players.map (fun p => p.currentBet)).sum := by
    induction s.players with
    | nil => simp
    | cons x xs ih =>
      simp only [List.map_cons, List.sum_cons, ih]
      ring
  rw [h1, h2]
  ring

theorem chipSum_postBlinds (s : GameState) : chipSum (postBlinds s) = chipSum s := by
  unfold postBlinds
  dsimp only
  rw [show chipSum _ = _ from rfl]
  calc chipSum { modifyAt (modifyAt s ((s.dealerIndex + 1) % s.players.length)
          (fun p => playerBet p smallBlind)) ((s.dealerIndex + 2) % s.players.length)
          (fun p => playerBet p bigBlind) with
        currentBet := bigBlind,
        currentPlayerIndex := ((s.dealerIndex + 2) % s.players.length + 1) %
          (modifyAt (modifyAt s ((s.dealerIndex + 1) % s.players.length)
            (fun p => playerBet p smallBlind)) ((s.dealerIndex + 2) % s.players.length)
            (fun p => playerBet p bigBlind)).players.length }
      = chipSum (modifyAt (modifyAt s ((s.dealerIndex + 1) % s.players.length)
          (fun p => playerBet p smallBlind)) ((s.dealerIndex + 2) % s.players.length)
          (fun p => playerBet p bigBlind)) := rfl
    _ = chipSum (modifyAt s ((s.dealerIndex + 1) % s.players.length)
          (fun p => playerBet p smallBlind)) :=
        chipSum_modifyAt _ _ _ (fun p => playerBet_chip p bigBlind)
    _ = chipSum s := chipSum_modifyAt _ _ _ (fun p => playerBet_chip p smallBlind)

/-- C5: chip conservation.  The quantity (sum of stacks) + pot + (sum of
current-street contributions) is unchanged by blind posting, every wager
path through `playerBet` (stack + contribution of the bettor is
conserved), check, call, bet, raise and fold handlers for both
participants, and by moving contributions into the pot with
`collectBets`. -/
theorem chip_conservation :
    (∀ (p : Player) (amount : ℚ),
      (playerBet p amount).stack + (playerBet p amount).currentBet =
        p.stack + p.currentBet) ∧
    (∀ s : GameState, chipSum (postBlinds s) = chipSum s) ∧
    (∀ s : GameState, chipSum (handlePlayerFold s) = chipSum s) ∧
    (∀ s : GameState, chipSum (handlePlayerCheckCall s) = chipSum s) ∧
    (∀ (s : GameState) (amt : ℚ), chipSum (handlePlayerConfirmBet s amt) = chipSum s) ∧
    (∀ s : GameState, chipSum (handlePlayerBetRaiseAllIn s) = chipSum s) ∧
    (∀ s : GameState, chipSum (aiFold s) = chipSum s) ∧
    (∀ s : GameState, chipSum (aiCheck s) = chipSum s) ∧
    (∀ s : GameState, chipSum (aiCall s) = chipSum s) ∧
    (∀ (s : GameState) (amt : ℚ), chipSum (aiBet s amt) = chipSum s) ∧
    (∀ (s : GameState) (amt : ℚ), chipSum (aiRaise s amt) = chipSum s) ∧
    (∀ s : GameState, chipSum (collectBets s) = chipSum s) := by
  refine ⟨playerBet_chip, chipSum_postBlinds, ?_, ?_, ?_, ?_, ?_, ?_, ?_, ?_, ?_,
    chipSum_collectBets⟩
  · intro s
    unfold handlePlayerFold
    rw [chipSum_endPlayerTurn]
    exact chipSum_updateById _ _ _ (fun p => rfl)
  · intro s
    unfold handlePlayerCheckCall
    dsimp only
    split_ifs with h
    · rw [chipSum_endPlayerTurn]
      exact chipSum_updateById _ _ _ (fun q => playerBet_chip q _)
    · exact chipSum_endPlayerTurn s
  · intro s amt
    unfold handlePlayerConfirmBet
    dsimp only
    rw [chipSum_endPlayerTurn, chipSum_setTableBet]
    exact chipSum_updateById _ _ _ (fun p => playerBet_chip p _)
  · intro s
    unfold handlePlayerBetRaiseAllIn
    dsimp only
    rw [chipSum_endPlayerTurn, chipSum_setTableBet]
    exact chipSum_updateById _ _ _ (fun p => playerBet_chip p _)
  · intro s
    unfold aiFold
    rw [chipSum_endPlayerTurn]
    exact chipSum_updateById _ _ _ (fun p => rfl)
  · intro s
    exact chipSum_endPlayerTurn s
  · intro s
    unfold aiCall
    rw [chipSum_endPlayerTurn]
    exact chipSum_updateById _ _ _ (fun p => playerBet_chip p _)
  · intro s amt
    unfold aiBet
    dsimp only
    rw [chipSum_endPlayerTurn, chipSum_setTableBet]
    exact chipSum_updateById _ _ _ (fun p => playerBet_chip p _)
  · intro s amt
    unfold aiRaise
    dsimp only
    rw [chipSum_endPlayerTurn, chipSum_setTableBet]
    exact chipSum_updateById _ _ _ (fun p => playerBet_chip p _)

/-! ### Bet/Raise bounds (C3) -/

theorem playerBet_id (p : Player) (amount : ℚ) : (playerBet p amount).id = p.id := by
  unfold playerBet
  dsimp only
  split_ifs <;> rfl

theorem playerBet_currentBet (p : Player) (amount : ℚ) :
    (playerBet p amount).currentBet = p.currentBet + min amount p.stack := by
  unfold playerBet
  dsimp only
  split_ifs <;> rfl

theorem playerBet_stack (p : Player) (amount : ℚ) :
    (playerBet p amount).stack = p.stack - min amount p.stack := by
  unfold playerBet
  dsimp only
  split_ifs <;> rfl

/-- C3: when the player chooses Bet/Raise and can cover the minimum, the
permitted target contribution runs from
`max(big-blind, current-bet × 2 − own contribution)` up to
`stack + own contribution`, and confirming a target in that range makes
the table bet level equal the player's new contribution (which equals the
chosen target).  At a current bet of one big blind (20) the minimum
target is 40; a stack at or below the required minimum instead forces an
all-in for the whole stack — permitted below 40 — after which the table
bet level is `max(20, stack)`, which equals the new contribution whenever
the all-in at least matches the standing bet. -/
theorem betRaise_minimum_and_allin :
    (∀ s : GameState, 0 ≤ s.currentBet →
      0 ≤ (findById s PlayerId.player).currentBet →
      betSliderMinOf s =
        max bigBlind (s.currentBet * 2 - (findById s PlayerId.player).currentBet) ∧
      betSliderMaxOf s =
        (findById s PlayerId.player).stack + (findById s PlayerId.player).currentBet) ∧
    (∀ (s : GameState) (p0 p1 : Player) (amt : ℚ),
      s.players = [p0, p1] → p0.id = PlayerId.player → p1.id = PlayerId.ai →
      s.currentPlayerIndex = 0 →
      p0.currentBet ≤ amt → amt ≤ p0.stack + p0.currentBet →
      (handlePlayerConfirmBet s amt).currentBet = amt ∧
      (findById (handlePlayerConfirmBet s amt) PlayerId.player).currentBet = amt) ∧
    (∀ (s : GameState) (p0 p1 : Player),
      s.players = [p0, p1] → p0.id = PlayerId.player → p1.id = PlayerId.ai →
      s.currentPlayerIndex = 0 →
      s.currentBet = 20 → p0.currentBet = 0 → 0 ≤ p0.stack →
      betSliderMinOf s = 40 ∧
      ((findById (handlePlayerBetRaiseAllIn s) PlayerId.player).currentBet = p0.stack ∧
        (handlePlayerBetRaiseAllIn s).currentBet = max 20 p0.stack ∧
        (20 ≤ p0.stack → (handlePlayerBetRaiseAllIn s).currentBet =
          (findById (handlePlayerBetRaiseAllIn s) PlayerId.player).currentBet))) := by
  refine ⟨?_, ?_, ?_⟩
  · intro s hcb hown
    refine ⟨?_, rfl⟩
    unfold betSliderMinOf minBetOf minRaiseOf
    by_cases h : s.currentBet > 0
    · rw [if_pos h]
    · rw [if_neg h]
      have hz : s.currentBet = 0 := le_antisymm (not_lt.1 h) hcb
      rw [hz]
      rw [max_eq_left, max_eq_left]
      · unfold bigBlind
        linarith
      · unfold bigBlind
        linarith
  · intro s p0 p1 amt h hp0 hp1 hcpi hle hge
    have hmin : min (amt - p0.currentBet) p0.stack = amt - p0.currentBet :=
      min_eq_left (by linarith)
    have hcb : (playerBet p0 (amt - p0.currentBet)).currentBet = amt := by
      rw [playerBet_currentBet, hmin]
      ring
    have hid : (playerBet p0 (amt - p0.currentBet)).id = PlayerId.player := by
      rw [playerBet_id, hp0]
    simp only [handlePlayerConfirmBet, updateById, endPlayerTurn, modifyAt, findById,
      h, hcpi, List.map_cons, List.map_nil, List.find?, hid, hp0, hp1]
    simp [hid, hp1, hcb]
  · intro s p0 p1 h hp0 hp1 hcpi hcb20 hown hstk
    constructor
    · unfold betSliderMinOf minBetOf minRaiseOf bigBlind
      rw [findById, h]
      simp only [List.find?, hp0, beq_self_eq_true]
      rw [hcb20, if_pos (by norm_num)]
      simp only [Option.getD_some, hown]
      norm_num
    · have hid : (playerBet p0 p0.stack).id = PlayerId.player := by
        rw [playerBet_id, hp0]
      have hcb : (playerBet p0 p0.stack).currentBet = p0.stack := by
        rw [playerBet_currentBet, min_self, hown]
        ring
      have hfind : findById s PlayerId.player = p0 := by
        rw [findById, h, List.find?_cons_of_pos _ (by simp [hp0]), Option.getD_some]
      simp only [handlePlayerBetRaiseAllIn, updateById, endPlayerTurn, modifyAt, findById,
        h, hcpi, List.map_cons, List.map_nil, List.find?, hid, hp0, hp1]
      simp [hcb20, hcb, hid, hp1]

def c3P0 : Player := ⟨PlayerId.player, [], 950, 0, false, false, false, false, none⟩

def c3P1 : Player := ⟨PlayerId.ai, [], 930, 0, false, false, false, false, none⟩

def c3State : GameState := ⟨[c3P0, c3P1], [], [], 160, 0, 20, 1, GameStage.river⟩

def c3ShortP0 : Player := ⟨PlayerId.player, [], 30, 0, false, false, false, false, none⟩

def c3ShortState : GameState := ⟨[c3ShortP0, c3P1], [], [], 40, 0, 20, 1, GameStage.flop⟩

/-- Witness for C3: at a table bet of 20 with no own contribution, the
slider spans [40, 950]; confirming 100 sets contribution and table bet to
100; with a short stack of 30 the forced all-in wagers 30 and the table
bet becomes 30. -/
theorem betRaise_minimum_and_allin_witness :
    (0 ≤ c3State.currentBet) ∧
    (0 ≤ (findById c3State PlayerId.player).currentBet) ∧
    (betSliderMinOf c3State =
      max bigBlind (c3State.currentBet * 2 - (findById c3State PlayerId.player).currentBet) ∧
      betSliderMaxOf c3State =
        (findById c3State PlayerId.player).stack + (findById c3State PlayerId.player).currentBet) ∧
    (c3P0.currentBet ≤ 100 ∧ (100 : ℚ) ≤ c3P0.stack + c3P0.currentBet) ∧
    ((handlePlayerConfirmBet c3State 100).currentBet = 100 ∧
      (findById (handlePlayerConfirmBet c3State 100) PlayerId.player).currentBet = 100) ∧
    (betSliderMinOf c3ShortState = 40 ∧
      ((findById (handlePlayerBetRaiseAllIn c3ShortState) PlayerId.player).currentBet =
        c3ShortP0.stack ∧
        (handlePlayerBetRaiseAllIn c3ShortState).currentBet = max 20 c3ShortP0.stack ∧
        (20 ≤ c3ShortP0.stack → (handlePlayerBetRaiseAllIn c3ShortState).currentBet =
          (findById (handlePlayerBetRaiseAllIn c3ShortState) PlayerId.player).currentBet))) :=
  ⟨by norm_num [c3State], by norm_num [c3State, c3P0, c3P1, findById, List.find?],
    betRaise_minimum_and_allin.1 c3State (by norm_num [c3State])
      (by norm_num [c3State, c3P0, c3P1, findById, List.find?]),
    ⟨by norm_num [c3P0], by norm_num [c3P0]⟩,
    betRaise_minimum_and_allin.2.1 c3State c3P0 c3P1 100 rfl rfl rfl rfl
      (by norm_num [c3P0]) (by norm_num [c3P0]),
    betRaise_minimum_and_allin.2.2 c3ShortState c3ShortP0 c3P1 rfl rfl rfl rfl rfl rfl
      (by norm_num [c3ShortP0])⟩

/-! ### The game as a transition system (for reachability claims)

Each step applies one embedded source function.  The shuffled deck of a
new hand and the AI's `Math.random()` draws are external randomness
(spec §6), so a step exists whenever SOME draw produces it: the deck may
be any permutation of the fresh 52-card deck, and an AI action is enabled
when its branch of `getAIAction` is taken for some random values — check
requires a zero call amount (the betting branches need `Math.random()`
below 0.8/0.6, so checking is always possible); call requires
`strength > potOdds` (choosing the random at 0.7 or above avoids the
raise sub-branch); fold requires `strength ≤ potOdds` (off the river the
fold is forced; on the river a random at 0.1 or above avoids the bluff).
Constructors not needed for the reachability witnesses below (AI bet and
raise, the restart after a showdown) are omitted; leaving transitions out
only shrinks the reachable set, which is sound for an existence claim. -/

/-- Embedding of `createDeck` from the source: one card per suit/rank pair, value
`index + 2`.  (The JS array is consumed from its end; this list is
written in deal order, which is irrelevant because every use goes through
an arbitrary shuffle permutation.) -/
def createDeck : List Card :=
  ([Suit.hearts, Suit.diamonds, Suit.clubs, Suit.spades].map (fun st =>
    (List.range 13).map (fun i => ({ suit := st, value := i + 2 } : Card)))).flatten

/-- The player solicited by `promptNextPlayer`: the one at the current
index, neither folded nor all-in. -/
def actorIs (s : GameState) (pid : PlayerId) : Prop :=
  match s.players.get? s.currentPlayerIndex with
  | some p => p.id = pid ∧ p.folded = false ∧ p.isAllIn = false
  | none => False

def actorIsB (s : GameState) (pid : PlayerId) : Bool :=
  match s.players.get? s.currentPlayerIndex with
  | some p => p.id == pid && !p.folded && !p.isAllIn
  | none => false

theorem actorIsB_iff (s : GameState) (pid : PlayerId) :
    actorIsB s pid = true ↔ actorIs s pid := by
  unfold actorIsB actorIs
  cases s.players.get? s.currentPlayerIndex with
  | none => simp
  | some p => simp [and_assoc]

def bettingStage (st : GameStage) : Prop :=
  st = GameStage.preflop ∨ st = GameStage.flop ∨ st = GameStage.turn ∨ st = GameStage.river

def bettingStageB (st : GameStage) : Bool :=
  st == GameStage.preflop || st == GameStage.flop || st == GameStage.turn ||
    st == GameStage.river

theorem bettingStageB_iff (st : GameStage) : bettingStageB st = true ↔ bettingStage st := by
  unfold bettingStageB bettingStage
  simp [or_assoc]

/-- Number of non-folded players (`players.filter(p => !p.folded).length`,
used by `nextStage`; `collectBets` does not change `folded`, so checking
it before or after collecting is the same). -/
def nonFoldedCount (s : GameState) : ℕ :=
  (s.players.filter (fun p => !p.folded)).length

/-- The `switch` of `nextStage` that deals the next street. -/
def dealNextStreet (s : GameState) : GameState :=
  match s.stage with
  | GameStage.preflop => dealFlop s
  | GameStage.flop => dealTurn s
  | GameStage.turn => dealRiver s
  | _ => s

inductive Step : GameState → GameState → Prop where
  | handStarts (s : GameState) (d : List Card) (hd : d.Perm createDeck)
      (hs : s.stage = GameStage.preDeal) : Step s (startHand s d)
  | playerFolds (s : GameState) (h1 : isBettingRoundOver s = false)
      (h2 : actorIs s PlayerId.player) (h3 : bettingStage s.stage) :
      Step s (handlePlayerFold s)
  | playerChecksOrCalls (s : GameState) (h1 : isBettingRoundOver s = false)
      (h2 : actorIs s PlayerId.player) (h3 : bettingStage s.stage) :
      Step s (handlePlayerCheckCall s)
  | playerConfirmsBet (s : GameState) (amt : ℚ) (h1 : isBettingRoundOver s = false)
      (h2 : actorIs s PlayerId.player) (h3 : bettingStage s.stage)
      (h4 : minBetOf s < (findById s PlayerId.player).stack)
      (h5 : betSliderMinOf s ≤ amt) (h6 : amt ≤ betSliderMaxOf s) :
      Step s (handlePlayerConfirmBet s amt)
  | playerForcedAllIn (s : GameState) (h1 : isBettingRoundOver s = false)
      (h2 : actorIs s PlayerId.player) (h3 : bettingStage s.stage)
      (h4 : (findById s PlayerId.player).stack ≤ minBetOf s) :
      Step s (handlePlayerBetRaiseAllIn s)
  | aiChecks (s : GameState) (h1 : isBettingRoundOver s = false)
      (h2 : actorIs s PlayerId.ai) (h3 : bettingStage s.stage)
      (h4 : aiCallAmount s = 0) : Step s (aiCheck s)
  | aiCalls (s : GameState) (h1 : isBettingRoundOver s = false)
      (h2 : actorIs s PlayerId.ai) (h3 : bettingStage s.stage)
      (h4 : 0 < aiCallAmount s) (h5 : aiPotOdds s < aiStrengthOf s) :
      Step s (aiCall s)
  | aiFolds (s : GameState) (h1 : isBettingRoundOver s = false)
      (h2 : actorIs s PlayerId.ai) (h3 : bettingStage s.stage)
      (h4 : 0 < aiCallAmount s) (h5 : aiStrengthOf s ≤ aiPotOdds s) :
      Step s (aiFold s)
  | streetAdvances (s : GameState) (h1 : isBettingRoundOver s = true)
      (h2 : bettingStage s.stage) (h3 : s.stage ≠ GameStage.river)
      (h4 : nonFoldedCount s ≠ 1) : Step s (dealNextStreet (collectBets s))
  | handEndsEarly (s : GameState) (d : List Card) (hd : d.Perm createDeck)
      (h1 : isBettingRoundOver s = true) (h2 : bettingStage s.stage)
      (h3 : nonFoldedCount s = 1) :
      Step s (startHand (awardPot (collectBets s) (fun p => !p.folded)) d)
  | showdownRuns (s : GameState) (h1 : isBettingRoundOver s = true)
      (h2 : s.stage = GameStage.river) (h3 : nonFoldedCount s ≠ 1) :
      Step s (showdownF (collectBets s))

/-- Executable counterpart of `Step`: one constructor choice per step. -/
inductive StepChoice where
  | handStarts (d : List Card)
  | playerFolds
  | playerChecksOrCalls
  | playerConfirmsBet (amt : ℚ)
  | playerForcedAllIn
  | aiChecks
  | aiCalls
  | aiFolds
  | streetAdvances
  | handEndsEarly (d : List Card)
  | showdownRuns

def applyStep (s : GameState) (c : StepChoice) : Option GameState :=
  match c with
  | StepChoice.handStarts d =>
    if (s.stage == GameStage.preDeal) && d.isPerm createDeck then some (startHand s d)
    else none
  | StepChoice.playerFolds =>
    if !isBettingRoundOver s && actorIsB s PlayerId.player && bettingStageB s.stage then
      some (handlePlayerFold s)
    else none
  | StepChoice.playerChecksOrCalls =>
    if !isBettingRoundOver s && actorIsB s PlayerId.player && bettingStageB s.stage then
      some (handlePlayerCheckCall s)
    else none
  | StepChoice.playerConfirmsBet amt =>
    if !isBettingRoundOver s && actorIsB s PlayerId.player && bettingStageB s.stage &&
        decide (minBetOf s < (findById s PlayerId.player).stack) &&
        decide (betSliderMinOf s ≤ amt) && decide (amt ≤ betSliderMaxOf s) then
      some (handlePlayerConfirmBet s amt)
    else none
  | StepChoice.playerForcedAllIn =>
    if !isBettingRoundOver s && actorIsB s PlayerId.player && bettingStageB s.stage &&
        decide ((findById s PlayerId.player).stack ≤ minBetOf s) then
      some (handlePlayerBetRaiseAllIn s)
    else none
  | StepChoice.aiChecks =>
    if !isBettingRoundOver s && actorIsB s PlayerId.ai && bettingStageB s.stage &&
        decide (aiCallAmount s = 0) then
      some (aiCheck s)
    else none
  | StepChoice.aiCalls =>
    if !isBettingRoundOver s && actorIsB s PlayerId.ai && bettingStageB s.stage &&
        decide (0 < aiCallAmount s) && decide (aiPotOdds s < aiStrengthOf s) then
      some (aiCall s)
    else none
  | StepChoice.aiFolds =>
    if !isBettingRoundOver s && actorIsB s PlayerId.ai && bettingStageB s.stage &&
        decide (0 < aiCallAmount s) && decide (aiStrengthOf s ≤ aiPotOdds s) then
      some (aiFold s)
    else none
  | StepChoice.streetAdvances =>
    if isBettingRoundOver s && bettingStageB s.stage && !(s.stage == GameStage.river) &&
        !(nonFoldedCount s == 1) then
      some (dealNextStreet (collectBets s))
    else none
  | StepChoice.handEndsEarly d =>
    if isBettingRoundOver s && bettingStageB s.stage && (nonFoldedCount s == 1) &&
        d.isPerm createDeck then
      some (startHand (awardPot (collectBets s) (fun p => !p.folded)) d)
    else none
  | StepChoice.showdownRuns =>
    if isBettingRoundOver s && (s.stage == GameStage.river) &&
        !(nonFoldedCount s == 1) then
      some (showdownF (collectBets s))
    else none

theorem applyStep_sound {s s' : GameState} {c : StepChoice}
    (h : applyStep s c = some s') : Step s s' := by
  cases c <;>
    simp only [applyStep] at h <;>
    split at h <;>
    simp only [Option.some.injEq, reduceCtorEq] at h <;>
    subst h <;>
    rename_i hc <;>
    simp only [Bool.and_eq_true, Bool.not_eq_true', beq_iff_eq, decide_eq_true_eq,
      List.isPerm_iff, Bool.not_eq_eq_eq_not, Bool.not_true, beq_eq_false_iff_ne,
      ne_eq] at hc
  · exact Step.handStarts s _ hc.2 hc.1
  · exact Step.playerFolds s hc.1.1 ((actorIsB_iff s _).1 hc.1.2) ((bettingStageB_iff _).1 hc.2)
  · exact Step.playerChecksOrCalls s hc.1.1 ((actorIsB_iff s _).1 hc.1.2)
      ((bettingStageB_iff _).1 hc.2)
  · exact Step.playerConfirmsBet s _ hc.1.1.1.1.1 ((actorIsB_iff s _).1 hc.1.1.1.1.2)
      ((bettingStageB_iff _).1 hc.1.1.1.2) hc.1.1.2 hc.1.2 hc.2
  · exact Step.playerForcedAllIn s hc.1.1.1 ((actorIsB_iff s _).1 hc.1.1.2)
      ((bettingStageB_iff _).1 hc.1.2) hc.2
  · exact Step.aiChecks s hc.1.1.1 ((actorIsB_iff s _).1 hc.1.1.2)
      ((bettingStageB_iff _).1 hc.1.2) hc.2
  · exact Step.aiCalls s hc.1.1.1.1 ((actorIsB_iff s _).1 hc.1.1.1.2)
      ((bettingStageB_iff _).1 hc.1.1.2) hc.1.2 hc.2
  · exact Step.aiFolds s hc.1.1.1.1 ((actorIsB_iff s _).1 hc.1.1.1.2)
      ((bettingStageB_iff _).1 hc.1.1.2) hc.1.2 hc.2
  · exact Step.streetAdvances s hc.1.1.1 ((bettingStageB_iff _).1 hc.1.1.2) hc.1.2 hc.2
  · exact Step.handEndsEarly s _ hc.2 hc.1.1.1 ((bettingStageB_iff _).1 hc.1.1.2) hc.1.2
  · exact Step.showdownRuns s hc.1.1 hc.1.2 hc.2

def applySteps (s : GameState) : List StepChoice → Option GameState
  | [] => some s
  | c :: cs =>
    match applyStep s c with
    | none => none
    | some s1 => applySteps s1 cs

theorem applySteps_reachable (cs : List StepChoice) (s s' : GameState)
    (h : applySteps s cs = some s') : Relation.ReflTransGen Step s s' := by
  induction cs generalizing s with
  | nil =>
    simp only [applySteps, Option.some.injEq] at h
    subst h
    exact Relation.ReflTransGen.refl
  | cons c cs ih =>
    simp only [applySteps] at h
    cases hstep : applyStep s c with
    | none => rw [hstep] at h; exact absurd h (by simp)
    | some s1 =>
      rw [hstep] at h
      exact Relation.ReflTransGen.head (applyStep_sound hstep) (ih s1 h)

/-! ### Pot award and a reachable fractional split (C9) -/

theorem sum_award (l : List Player) (w : ℚ) (isW : Player → Bool) :
    ((l.map (fun p => if isW p then { p with stack := p.stack + w } else p)).map
      (fun p => p.stack)).sum =
      (l.map (fun p => p.stack)).sum + ((l.filter isW).length : ℚ) * w := by
  induction l with
  | nil => simp
  | cons x xs ih =>
    by_cases hx : isW x
    · simp only [List.map_cons, hx, if_true, List.sum_cons, ih, List.filter_cons_of_pos hx,
        List.length_cons]
      push_cast
      ring
    · have hx' : isW x = false := by
        simp [hx]
      simp only [List.map_cons, hx', Bool.false_eq_true, if_false, List.sum_cons, ih,
        List.filter_cons_of_neg hx]
      ring

def deck1Lead : List Card :=
  [⟨Suit.hearts, 14⟩, ⟨Suit.clubs, 2⟩, ⟨Suit.diamonds, 14⟩, ⟨Suit.hearts, 7⟩,
    ⟨Suit.diamonds, 2⟩, ⟨Suit.diamonds, 13⟩, ⟨Suit.clubs, 8⟩, ⟨Suit.hearts, 4⟩]

/-- Shuffle outcome for the first hand of the witness run: hole cards
A♥ 2♣ A♦ 7♥ (player gets the aces, the AI 2♣ 7♥), burn 2♦ and flop
K♦ 8♣ 4♥; the remaining cards never come out. -/
def deck1 : List Card :=
  deck1Lead ++ createDeck.filter (fun c => !(deck1Lead.contains c))

def deck3Lead : List Card :=
  [⟨Suit.hearts, 2⟩, ⟨Suit.hearts, 9⟩, ⟨Suit.hearts, 3⟩, ⟨Suit.diamonds, 9⟩,
    ⟨Suit.diamonds, 10⟩, ⟨Suit.spades, 9⟩, ⟨Suit.spades, 8⟩, ⟨Suit.spades, 7⟩,
    ⟨Suit.diamonds, 11⟩, ⟨Suit.spades, 6⟩, ⟨Suit.diamonds, 12⟩, ⟨Suit.spades, 5⟩]

/-- Shuffle outcome for the third hand: the player gets 2♥ 3♥, the AI
9♥ 9♦, and the board runs out 9♠ 8♠ 7♠ 6♠ 5♠ — a straight flush on the
board that both share, so the showdown is an exact tie. -/
def deck3 : List Card :=
  deck3Lead ++ createDeck.filter (fun c => !(deck3Lead.contains c))

/-- The choice sequence of the witness run.  Hand 1: the player limps,
the AI checks; on the flop the player bets 20 and the AI (king high,
strength 1/20, pot odds 1/3) folds, leaving stacks 1020/980.  Hand 2: the
AI is the small blind and must fold pre-flop (pre-flop its strength is 0
and the pot odds are 1, since the blinds are still uncollected), leaving
1030/970.  Hand 3: blinds 10/20, the player calls, the AI checks; the
player bets 20 then 40, the AI calls with trip nines; on the river the
player bets 901 and the AI calls all-in for its remaining 890 —
contributions 901 and 890 on top of the collected 160 make the pot 1951,
an odd number split between the two tied straight flushes. -/
def c9PreTrace : List StepChoice :=
  [StepChoice.handStarts deck1,
   StepChoice.playerChecksOrCalls,
   StepChoice.aiChecks,
   StepChoice.streetAdvances,
   StepChoice.playerConfirmsBet 20,
   StepChoice.aiFolds,
   StepChoice.handEndsEarly createDeck,
   StepChoice.aiFolds,
   StepChoice.handEndsEarly deck3,
   StepChoice.playerChecksOrCalls,
   StepChoice.aiChecks,
   StepChoice.streetAdvances,
   StepChoice.playerConfirmsBet 20,
   StepChoice.aiCalls,
   StepChoice.streetAdvances,
   StepChoice.playerConfirmsBet 40,
   StepChoice.aiCalls,
   StepChoice.streetAdvances,
   StepChoice.playerConfirmsBet 901,
   StepChoice.aiCalls]

/-- All facts about the end state of the witness run, bundled so one
kernel evaluation settles them. -/
def c9Check (s : GameState) : Bool :=
  isBettingRoundOver s && (s.stage == GameStage.river) && !(nonFoldedCount s == 1) &&
    ((collectBets s).pot == 1951) && ((showdownWinners (collectBets s)).length == 2) &&
    (((showdownF (collectBets s)).players.map (fun p => p.stack.den)) == [2, 2])

set_option maxRecDepth 1000000 in
unseal Rat.add Rat.sub Rat.mul Rat.inv in
/-- C9: `awardPot` adds exactly `pot / (number of winners)` to each
winner's stack (plain rational division, no remainder handling) and zeroes
the pot, and there is a reachable showdown — after three hands of play —
with two tied winners and a pot of 1951, not divisible by 2, whose award
leaves every stack at a non-integer chip amount. -/
theorem awardPot_division_and_reachable_fractional :
    (∀ (s : GameState) (isW : Player → Bool), 0 < (s.players.filter isW).length →
      (awardPot s isW).pot = 0 ∧
      (awardPot s isW).players = s.players.map (fun p =>
        if isW p then
          { p with stack := p.stack + s.pot / ((s.players.filter isW).length : ℚ) }
        else p) ∧
      ((awardPot s isW).players.map (fun p => p.stack)).sum =
        (s.players.map (fun p => p.stack)).sum + s.pot) ∧
    (∃ s : GameState, Relation.ReflTransGen Step initGameState s ∧
      isBettingRoundOver s = true ∧ s.stage = GameStage.river ∧
      Step s (showdownF (collectBets s)) ∧
      (collectBets s).pot = 1951 ∧
      (¬∃ n : ℤ, (collectBets s).pot = 2 * (n : ℚ)) ∧
      (showdownWinners (collectBets s)).length = 2 ∧
      (∀ p ∈ (showdownF (collectBets s)).players, ¬∃ n : ℤ, p.stack = (n : ℚ))) := by
  constructor
  · intro s isW hn
    refine ⟨rfl, rfl, ?_⟩
    show ((s.players.map (fun p =>
      if isW p then
        { p with stack := p.stack + s.pot / ((s.players.filter isW).length : ℚ) }
      else p)).map (fun p => p.stack)).sum = _
    rw [sum_award]
    have hne : ((s.players.filter isW).length : ℚ) ≠ 0 := by
      exact_mod_cast Nat.pos_iff_ne_zero.1 hn
    rw [mul_div_cancel₀ _ hne]
  · have h : (applySteps initGameState c9PreTrace).map c9Check = some true := by decide
    obtain ⟨s, hs, hcheck⟩ := Option.map_eq_some'.1 h
    simp only [c9Check, Bool.and_eq_true, beq_iff_eq, Bool.not_eq_eq_eq_not, Bool.not_true,
      beq_eq_false_iff_ne, ne_eq] at hcheck
    obtain ⟨⟨⟨⟨⟨h1, h2⟩, h3⟩, h4⟩, h5⟩, h6⟩ := hcheck
    refine ⟨s, applySteps_reachable _ _ _ hs, h1, h2,
      Step.showdownRuns s h1 h2 h3, h4, ?_, h5, ?_⟩
    · rintro ⟨n, hn⟩
      rw [h4] at hn
      have hz : ((1951 : ℤ) : ℚ) = ((2 * n : ℤ) : ℚ) := by
        push_cast
        linarith
      have := Int.cast_injective (α := ℚ) hz
      omega
    · intro p hp
      rintro ⟨n, hn⟩
      have hden : p.stack.den = 2 := by
        have hmem : p.stack.den ∈
            (showdownF (collectBets s)).players.map (fun q => q.stack.den) :=
          List.mem_map_of_mem _ hp
        rw [h6] at hmem
        simpa using hmem
      rw [hn] at hden
      rw [Rat.den_intCast] at hden
      omega

/-- Witness for C9 at a concrete input: awarding the (empty) pot of the
constructor state to both players. -/
theorem awardPot_division_and_reachable_fractional_witness :
    (0 < (initGameState.players.filter (fun _ => true)).length) ∧
    ((awardPot initGameState (fun _ => true)).pot = 0 ∧
      (awardPot initGameState (fun _ => true)).players =
        initGameState.players.map (fun p =>
          if (fun _ : Player => true) p then
            { p with stack := p.stack + initGameState.pot /
              ((initGameState.players.filter (fun _ => true)).length : ℚ) }
          else p) ∧
      ((awardPot initGameState (fun _ => true)).players.map (fun p => p.stack)).sum =
        (initGameState.players.map (fun p => p.stack)).sum + initGameState.pot) :=
  ⟨by decide,
    awardPot_division_and_reachable_fractional.1 initGameState (fun _ => true) (by decide)⟩

end Poker
